import Mathlib

/-!
Verification of the chunk-processing control loop and the JSON document
manipulation engine of the text-to-JSON extraction agent.

The Python sources are embedded shallowly:

* JSON documents become the inductive type `JSON` (dicts are ordered
  association lists, mirroring Python's insertion-ordered `dict`);
* every tool (`apply_patches`, `inspect_keys`, `read_value`,
  `search_pointer`, `update_guidance`) becomes a total Lean function with
  the same branching structure as its source;
* the third-party `jsonpatch` / `jsonpointer` libraries, which are not part
  of this repository, are modelled by their documented RFC 6902 / RFC 6901
  behaviour: resolution and application failures are values of an explicit
  error type (in Python they are members of the `JsonPatchException` /
  `JsonPointerException` families caught by `apply_patches`);
* the LangGraph nodes of `agent/nodes.py` become functions from a state
  record to a delta record whose `Option` fields model the keys of the
  Python update dict; the external model is an oracle argument;
* Python's recursion into heap objects guarded by `id()` identity
  (`search_pointer`) is modelled twice: structurally for the tree-shaped
  documents this program actually builds, and over an explicit arena of
  numbered nodes — the faithful picture of the Python heap, in which
  self-referential (graph-shaped) structures are expressible.
-/

set_option maxHeartbeats 1000000

namespace Spec2Proof

/-- A JSON value.  Python dicts keep insertion order, so objects are ordered
association lists; numbers are modelled as integers (no claim in scope
depends on float arithmetic). -/
inductive JSON where
  | null : JSON
  | bool (b : Bool) : JSON
  | num (n : Int) : JSON
  | str (s : String) : JSON
  | arr (items : List JSON) : JSON
  | obj (fields : List (String × JSON)) : JSON
deriving Inhabited

/-- Python `type(value).__name__` for the scalar runtime types of a JSON
value produced by `json.loads`. -/
def typeNameOf : JSON → String
  | .null => "NoneType"
  | .bool _ => "bool"
  | .num _ => "int"
  | .str _ => "str"
  | .arr _ => "list"
  | .obj _ => "dict"

/-- Python `str(value)` for scalar JSON values (`None` / `True` / `False`,
decimal integers, and strings unchanged). -/
def pyStr : JSON → String
  | .null => "None"
  | .bool true => "True"
  | .bool false => "False"
  | .num n => toString n
  | .str s => s
  | .arr _ => "[...]"
  | .obj _ => "\x7b...\x7d"

/-- Python string slice `s[:n]`. -/
def strTake (s : String) (n : Nat) : String :=
  String.mk (s.toList.take n)

/-- Whether the character list `pat` occurs at the very start of `l`
(Python's pattern test at one position inside `str.replace`). -/
def startsWithL : List Char → List Char → Bool
  | [], _ => true
  | _ :: _, [] => false
  | p :: ps, c :: cs => p = c && startsWithL ps cs

/-- Substring containment on character lists (Python `sub in s`). -/
def isInfixL (n : List Char) : List Char → Bool
  | [] => n.isEmpty
  | c :: cs => startsWithL n (c :: cs) || isInfixL n cs

/-- Python `sub in s` for strings. -/
def containsSub (s sub : String) : Bool :=
  isInfixL sub.toList s.toList

/-- Fuelled worker for Python `str.replace`: scan left to right, replace each
non-overlapping occurrence of `pat` by `repl`.  One unit of fuel is spent
per consumed character, so fuel `l.length` always suffices (`pyReplace`).
The `pat ≠ []` guard matches the fact that the codec never calls `replace`
with an empty pattern. -/
def pyReplaceAux (pat repl : List Char) : Nat → List Char → List Char
  | _, [] => []
  | 0, l => l
  | fuel + 1, c :: cs =>
    if pat ≠ [] ∧ startsWithL pat (c :: cs) = true then
      repl ++ pyReplaceAux pat repl fuel (List.drop pat.length (c :: cs))
    else
      c :: pyReplaceAux pat repl fuel cs

/-- Python `l.replace(pat, repl)` on character lists. -/
def pyReplace (pat repl l : List Char) : List Char :=
  pyReplaceAux pat repl l.length l

/-- Python `s.replace(pat, repl)` on strings. -/
def pyReplaceS (s pat repl : String) : String :=
  String.mk (pyReplace pat.toList repl.toList s.toList)

/-- `decode_pointer_token` (src/src/text_to_json/tools/json_pointer.py):
`token.replace("~1", "/").replace("~0", "~")`. -/
def decode_pointer_token (token : String) : String :=
  pyReplaceS (pyReplaceS token "~1" "/") "~0" "~"

/-- `encode_pointer_token` (src/src/text_to_json/tools/json_pointer.py):
`str(token).replace("~", "~0").replace("/", "~1")`. -/
def encode_pointer_token (token : String) : String :=
  pyReplaceS (pyReplaceS token "~" "~0") "/" "~1"

/-- The single-pass character expansion that `encode_pointer_token`'s two
sequential `replace` calls amount to (`~` → `~0`, then `/` → `~1`). -/
def encChar (c : Char) : List Char :=
  if c = '~' then ['~', '0'] else if c = '/' then ['~', '1'] else [c]

/-- The character expansion left after decoding's first pass (`~1` → `/`)
has been applied to an encoded string: only the `~` → `~0` escape remains. -/
def tilChar (c : Char) : List Char :=
  if c = '~' then ['~', '0'] else [c]

/-- Worker for Python `s.split(sep)` with a one-character separator. -/
def splitOnCharAux (sep : Char) : List Char → List Char → List (List Char)
  | [], acc => [acc.reverse]
  | c :: cs, acc =>
    if c = sep then acc.reverse :: splitOnCharAux sep cs []
    else splitOnCharAux sep cs (c :: acc)

/-- Python `path.split("/")` (in particular `"".split("/") == [""]`). -/
def splitOnSlash (s : String) : List String :=
  (splitOnCharAux '/' s.toList []).map String.mk

/-- Parse a non-empty all-digit string as a natural number (the shape
`int(part)` accepts after jsonpointer's sequence-index check). -/
def strToNatQ (s : String) : Option Nat :=
  if s.toList ≠ [] ∧ s.toList.all Char.isDigit then
    some (s.toList.foldl (fun n c => n * 10 + (c.toNat - 48)) 0)
  else none

/-! ### Association-list primitives for Python dicts -/

/-- Python `d[key]` lookup (first binding wins; dicts never hold duplicate
keys). -/
def lookupAssoc (fields : List (String × JSON)) (key : String) : Option JSON :=
  match fields with
  | [] => none
  | (k, v) :: rest => if k = key then some v else lookupAssoc rest key

/-- Python `d[key] = v`: overwrite in place (keeping the key's position, as
an insertion-ordered dict does) or append a new binding. -/
def setAssoc (fields : List (String × JSON)) (key : String) (v : JSON) :
    List (String × JSON) :=
  match fields with
  | [] => [(key, v)]
  | (k, x) :: rest => if k = key then (k, v) :: rest else (k, x) :: setAssoc rest key v

/-- Python `del d[key]` (no-op if absent; callers check presence first). -/
def eraseAssoc (fields : List (String × JSON)) (key : String) : List (String × JSON) :=
  match fields with
  | [] => []
  | (k, x) :: rest => if k = key then rest else (k, x) :: eraseAssoc rest key

/-- Python `l.insert(i, v)` for `0 ≤ i ≤ len l`. -/
def insertAt (l : List JSON) (i : Nat) (v : JSON) : List JSON :=
  l.take i ++ v :: l.drop i

/-- Python `l[i] = v` for `i < len l`. -/
def setAt (l : List JSON) (i : Nat) (v : JSON) : List JSON :=
  l.take i ++ v :: l.drop (i + 1)

/-- Python `del l[i]` for `i < len l`. -/
def eraseAt (l : List JSON) (i : Nat) : List JSON :=
  l.take i ++ l.drop (i + 1)

/-! ### Patch engine (src/tools/apply_patches.py plus the jsonpatch /
jsonpointer libraries it drives)

The pip libraries raise `JsonPointerException`, `JsonPatchConflict` and
`InvalidJsonPatch` (a `JsonPatchException`); `apply_patches` catches exactly
these families.  The model's `PatchErr` carries the matching kind so the
`except` arms of the source can be reproduced. -/

/-- Which `except` arm of `apply_patches` a library failure lands in. -/
inductive PatchErrKind where
  | conflict : PatchErrKind
  | patch : PatchErrKind
  | pointer : PatchErrKind
deriving DecidableEq

/-- A failure raised by the modelled jsonpatch/jsonpointer machinery. -/
structure PatchErr where
  kind : PatchErrKind
  msg : String

/-- A single RFC 6902 patch operation as received from the model: a JSON
object read with `.get`, so every member is optional. -/
structure PatchOp where
  op : Option String := none
  path : Option String := none
  value : Option JSON := none
  fromPath : Option String := none

/-- jsonpointer's `JsonPointer(path)` parse: the path splits on `/` and the
first part must be empty (so the path is `""` or starts with `/`); the
remaining parts are unescaped with `~1` → `/` then `~0` → `~`. -/
def ptrTokensE (path : Option String) : Except PatchErr (List String) :=
  match path with
  | none => .error ⟨.patch, "Operation must have a path member"⟩
  | some p =>
    match splitOnSlash p with
    | "" :: rest => .ok (rest.map decode_pointer_token)
    | _ => .error ⟨.pointer, "location must starts with /"⟩

/-- One step of jsonpointer's `walk`: a dict consumes the token as a key, a
list requires a decimal index in range (`-` denotes end-of-list and cannot
be read), anything else is unresolvable. -/
def walkStep (doc : JSON) (tok : String) : Except PatchErr JSON :=
  match doc with
  | .obj fields =>
    match lookupAssoc fields tok with
    | some v => .ok v
    | none => .error ⟨.pointer, "member " ++ tok ++ " not found"⟩
  | .arr items =>
    if tok = "-" then .error ⟨.pointer, "end of list cannot be read"⟩
    else
      match strToNatQ tok with
      | some i =>
        if _ : i < items.length then .ok items[i]
        else .error ⟨.pointer, "index " ++ tok ++ " is out of bounds"⟩
      | none => .error ⟨.pointer, tok ++ " is not a valid sequence index"⟩
  | _ => .error ⟨.pointer, "unresolvable pointer into a scalar"⟩

/-- jsonpointer's `resolve`: walk every token from the document root. -/
def resolveTs (doc : JSON) : List String → Except PatchErr JSON
  | [] => .ok doc
  | t :: rest => do resolveTs (← walkStep doc t) rest

/-- Rebuild the containing node after modifying the child a token list
addresses: functional form of jsonpatch's in-place container mutation at
the end of `to_last`. -/
def updateAtTs (doc : JSON) (ts : List String) (f : JSON → Except PatchErr JSON) :
    Except PatchErr JSON :=
  match ts with
  | [] => f doc
  | t :: rest =>
    match doc with
    | .obj fields =>
      match lookupAssoc fields t with
      | some v => do .ok (.obj (setAssoc fields t (← updateAtTs v rest f)))
      | none => .error ⟨.pointer, "member " ++ t ++ " not found"⟩
    | .arr items =>
      if t = "-" then .error ⟨.pointer, "end of list cannot be read"⟩
      else
        match strToNatQ t with
        | some i =>
          if h : i < items.length then do
            .ok (.arr (setAt items i (← updateAtTs items[i] rest f)))
          else .error ⟨.pointer, "index " ++ t ++ " is out of bounds"⟩
        | none => .error ⟨.pointer, t ++ " is not a valid sequence index"⟩
    | _ => .error ⟨.pointer, "unresolvable pointer into a scalar"⟩

/-- jsonpatch `AddOperation` at the last token: dict assignment overwrites
or appends; list insertion accepts `-` (append) or an index `0 ≤ i ≤ len`.  -/
def insertTok (container : JSON) (tok : String) (v : JSON) : Except PatchErr JSON :=
  match container with
  | .obj fields => .ok (.obj (setAssoc fields tok v))
  | .arr items =>
    if tok = "-" then .ok (.arr (items ++ [v]))
    else
      match strToNatQ tok with
      | some i =>
        if i ≤ items.length then .ok (.arr (insertAt items i v))
        else .error ⟨.conflict, "can not add to list index " ++ tok ++ " out of range"⟩
      | none => .error ⟨.pointer, tok ++ " is not a valid sequence index"⟩
  | _ => .error ⟨.conflict, "can not add a member to a scalar"⟩

/-- jsonpatch `RemoveOperation` at the last token. -/
def delTok (container : JSON) (tok : String) : Except PatchErr JSON :=
  match container with
  | .obj fields =>
    match lookupAssoc fields tok with
    | some _ => .ok (.obj (eraseAssoc fields tok))
    | none => .error ⟨.conflict, "can not remove non-existent member " ++ tok⟩
  | .arr items =>
    match strToNatQ tok with
    | some i =>
      if i < items.length then .ok (.arr (eraseAt items i))
      else .error ⟨.conflict, "can not remove list index " ++ tok ++ " out of range"⟩
    | none => .error ⟨.conflict, tok ++ " is not a valid list index for remove"⟩
  | _ => .error ⟨.conflict, "can not remove a member from a scalar"⟩

/-- jsonpatch `ReplaceOperation` at the last token: the addressed member
must already exist. -/
def replTok (container : JSON) (tok : String) (v : JSON) : Except PatchErr JSON :=
  match container with
  | .obj fields =>
    match lookupAssoc fields tok with
    | some _ => .ok (.obj (setAssoc fields tok v))
    | none => .error ⟨.conflict, "can not replace non-existent member " ++ tok⟩
  | .arr items =>
    match strToNatQ tok with
    | some i =>
      if i < items.length then .ok (.arr (setAt items i v))
      else .error ⟨.conflict, "can not replace list index " ++ tok ++ " out of range"⟩
    | none => .error ⟨.conflict, tok ++ " is not a valid list index for replace"⟩
  | _ => .error ⟨.conflict, "can not replace a member of a scalar"⟩

/-- Apply an operation on the final token of a pointer: walk to the parent
container with `updateAtTs`, then act on the last token (jsonpatch's
`to_last` pattern).  An empty token list means the document root. -/
def applyAtLast (doc : JSON) (ts : List String)
    (onRoot : Except PatchErr JSON)
    (onLast : JSON → String → Except PatchErr JSON) : Except PatchErr JSON :=
  match ts with
  | [] => onRoot
  | [t] => onLast doc t
  | t :: rest => updateAtTs doc [t] (fun sub => applyAtLast sub rest onRoot onLast)

/-- jsonpatch `AddOperation`: at the root it replaces the whole document. -/
def addAt (doc : JSON) (ts : List String) (v : JSON) : Except PatchErr JSON :=
  applyAtLast doc ts (.ok v) (fun container t => insertTok container t v)

/-- jsonpatch `RemoveOperation`: removing the root raises a conflict (the
library's `del subobj[None]` raises `KeyError`, mapped to
`JsonPatchConflict`). -/
def removeAt (doc : JSON) (ts : List String) : Except PatchErr JSON :=
  applyAtLast doc ts (.error ⟨.conflict, "can not remove the document root"⟩) delTok

/-- jsonpatch `ReplaceOperation`: at the root it returns the new value. -/
def replaceAt (doc : JSON) (ts : List String) (v : JSON) : Except PatchErr JSON :=
  applyAtLast doc ts (.ok v) (fun container t => replTok container t v)

/-- jsonpatch `MoveOperation`: resolve `from`, refuse to move a value into
its own children, then remove at `from` and add at `path`.  A `from` equal
to `path` is a no-op. -/
def moveAt (doc : JSON) (fromTs pathTs : List String) (v : JSON) :
    Except PatchErr JSON :=
  if fromTs = pathTs then .ok doc
  else if fromTs.isPrefixOf pathTs then
    .error ⟨.conflict, "Cannot move values into their own children"⟩
  else do
    addAt (← removeAt doc fromTs) pathTs v

/-- `operation["value"]`: a missing `value` member is an `InvalidJsonPatch`. -/
def getOpValue (p : PatchOp) : Except PatchErr JSON :=
  match p.value with
  | some v => .ok v
  | none => .error ⟨.patch, "The operation does not contain a value member"⟩

/-- Apply one RFC 6902 operation, as a single-element `jsonpatch.JsonPatch`
would (`copy` deep-copies the resolved value; in value semantics the copy
is the value itself). -/
def applyOne (doc : JSON) (p : PatchOp) : Except PatchErr JSON :=
  match p.op with
  | some "add" => do addAt doc (← ptrTokensE p.path) (← getOpValue p)
  | some "remove" => do removeAt doc (← ptrTokensE p.path)
  | some "replace" => do replaceAt doc (← ptrTokensE p.path) (← getOpValue p)
  | some "move" => do
    let fromTs ← ptrTokensE p.fromPath
    let v ← resolveTs doc fromTs
    moveAt doc fromTs (← ptrTokensE p.path) v
  | some "copy" => do
    let v ← resolveTs doc (← ptrTokensE p.fromPath)
    addAt doc (← ptrTokensE p.path) v
  | _ => .error ⟨.patch, "Unknown operation"⟩

/-- `jsonpatch.JsonPatch(patches).apply(document)`: the operations are
applied strictly in list order against the same threaded document; the
first failure aborts the whole application. -/
def applyAllOps (doc : JSON) : List PatchOp → Except PatchErr JSON
  | [] => .ok doc
  | p :: rest =>
    match applyOne doc p with
    | .ok d => applyAllOps d rest
    | .error e => .error e

/-- Replay loop of `_find_failed_patch_index`: apply the operations one at
a time from the original document, returning the index of the first one
that fails (`none` when the whole list replays cleanly). -/
def findFailedAux (doc : JSON) : List PatchOp → Nat → Option Nat
  | [], _ => none
  | p :: rest, i =>
    match applyOne doc p with
    | .ok d => findFailedAux d rest (i + 1)
    | .error _ => some i

/-- `_find_failed_patch_index` (src/tools/apply_patches.py): replay from
the original document; if replay never diverges the source falls back to
`len(patches) - 1`. -/
def findFailedPatchIndex (doc : JSON) (patches : List PatchOp) : Nat :=
  (findFailedAux doc patches 0).getD (patches.length - 1)

/-- `valid_ops` of `apply_patches`. -/
def validOps : List String := ["add", "remove", "replace", "move", "copy"]

/-- Whether an operation passes the validation loop of `apply_patches`
(`op` is a member of `valid_ops`; a missing `op` reads as `None`). -/
def opIsValid (p : PatchOp) : Bool :=
  match p.op with
  | some o => o ∈ validOps
  | none => false

/-- Python `str(op)` for the optional `op` member (`None` when missing). -/
def opStr (p : PatchOp) : String := p.op.getD "None"

/-- Error text of the validation failure
`f"Invalid operation '{op}' at index {i}. Supported: {valid_ops}"`. -/
def invalidOpMsg (p : PatchOp) (i : Nat) : String :=
  "Invalid operation \x27" ++ opStr p ++ "\x27 at index " ++ toString i ++
    ". Supported: \x7b\x27add\x27, \x27remove\x27, \x27replace\x27, \x27move\x27, \x27copy\x27\x7d"

/-- Error text of the dedicated (unreachable, see `apply_patches`) `test`
rejection branch. -/
def testOpMsg : String :=
  "Operation \x27test\x27 is not supported. Use inspect_keys/read_value/search_pointer instead."

/-- The validation loop of `apply_patches`: the first operation whose `op`
is not recognized aborts with its own index and message.  The source also
has an `op == "test"` branch after the membership test; it is unreachable
because `"test"` is already outside `valid_ops`, but it is kept here as in
the source. -/
def findInvalidOp : List PatchOp → Nat → Option (Nat × String)
  | [], _ => none
  | p :: rest, i =>
    if ¬ opIsValid p then some (i, invalidOpMsg p i)
    else if p.op = some "test" then some (i, testOpMsg)
    else findInvalidOp rest (i + 1)

/-- Result dict of `apply_patches`. -/
inductive PatchResult where
  | success (document : JSON) (applied_count : Nat) (message : Option String) : PatchResult
  | failureRes (error : String) (failed_at_index : Nat) : PatchResult

/-- The `document` member of the result: only a success exposes one. -/
def PatchResult.documentOf : PatchResult → Option JSON
  | .success d _ _ => some d
  | .failureRes _ _ => none

/-- Prefix chosen by the `except` arm that catches a library failure
(`Patch conflict: ` / `Patch error: ` / `Invalid path: `). -/
def patchErrText (e : PatchErr) : String :=
  match e.kind with
  | .conflict => "Patch conflict: " ++ e.msg
  | .patch => "Patch error: " ++ e.msg
  | .pointer => "Invalid path: " ++ e.msg

/-- `apply_patches` (src/tools/apply_patches.py): empty list short-circuit,
validation pass, then the all-or-nothing application via jsonpatch with the
failing index recovered by replay.  The source's final `except Exception`
arm (index 0) guards exceptions outside the jsonpatch/jsonpointer families,
which the modelled error algebra does not produce. -/
def apply_patches (document : JSON) (patches : List PatchOp)
    (_target_schema : Option JSON) : PatchResult :=
  match patches with
  | [] => .success document 0 (some "No patches to apply")
  | _ :: _ =>
    match findInvalidOp patches 0 with
    | some (i, msg) => .failureRes msg i
    | none =>
      match applyAllOps document patches with
      | .ok d => .success d patches.length none
      | .error e => .failureRes (patchErrText e) (findFailedPatchIndex document patches)

/-- The call-time effect of `apply_patches` on the caller's document
object: the result, paired with the value of the caller's object after the
call.  `jsonpatch.JsonPatch.apply` is invoked with its default
`in_place=False`, so it deep-copies the document before mutating anything;
the caller's object is therefore never written, which in value semantics
means the post-call value is the argument itself. -/
def apply_patches_effect (document : JSON) (patches : List PatchOp)
    (target_schema : Option JSON) : PatchResult × JSON :=
  (apply_patches document patches target_schema, document)

/-! ### Document query engine: inspect_keys (src/tools/inspect_keys.py) and
read_value (src/tools/read_value.py) -/

/-- Pointer resolution as both query tools perform it: the root paths `""`
and `"/"` short-circuit to the whole document, anything else goes through
`jsonpointer.resolve_pointer`, whose `JsonPointerException` is caught and
rendered with `str(e)`. -/
def resolveForTools (document : JSON) (path : String) : Except PatchErr JSON :=
  if path = "" ∨ path = "/" then .ok document
  else do resolveTs document (← ptrTokensE (some path))

/-- Result dict of `inspect_keys`. -/
inductive InspectResult where
  | notFound (error : String) (path : String) : InspectResult
  | objectInfo (path : String) (keys : List String) (count : Nat) : InspectResult
  | arrayInfo (path : String) (length : Nat) : InspectResult
  | scalarInfo (path : String) (typeName : String) (value : String) : InspectResult

/-- The scalar preview of `inspect_keys`: `str(value)`, and when that is
longer than 100 characters, its first 100 characters with `"..."` appended
(total length up to 103). -/
def inspectPreview (s : String) : String :=
  if 100 < s.length then strTake s 100 ++ "..." else s

/-- `inspect_keys` (src/tools/inspect_keys.py).  The source's
`if not path: path = ""` is the identity on strings and is omitted. -/
def inspect_keys (document : JSON) (path : String) : InspectResult :=
  match resolveForTools document path with
  | .error e => .notFound e.msg path
  | .ok (.obj fields) => .objectInfo path (fields.map Prod.fst) fields.length
  | .ok (.arr items) => .arrayInfo path items.length
  | .ok v => .scalarInfo path (typeNameOf v) (inspectPreview (pyStr v))

/-- Depth-cap placeholder for an object: `f"{{...}} ({len(value)} keys)"`. -/
def objPlaceholder (n : Nat) : String :=
  "\x7b...\x7d (" ++ toString n ++ " keys)"

/-- Depth-cap placeholder for an array: `f"[...] ({len(value)} items)"`. -/
def arrPlaceholder (n : Nat) : String :=
  "[...] (" ++ toString n ++ " items)"

/-- `_truncate_value` (src/tools/read_value.py).  The source tracks
`current_depth` against `max_depth`; here the pair is carried as the
remaining depth budget `k = max_depth - current_depth`, so the source's
`current_depth >= max_depth` collapse branch is the `0` case and each
recursion into children decrements the budget.  A compound value at an
exhausted budget collapses to a count-only placeholder string; long strings
are cut (with a shorter marker inside the collapse branch); oversized
objects keep the first `max_object_keys` entries plus a `"__truncated__"`
marker entry, oversized arrays keep the first `max_array_items` entries
plus a trailing marker string. -/
def truncVal (msl mai mok : Nat) : Nat → JSON → JSON
  | 0, .obj fields => .str (objPlaceholder fields.length)
  | 0, .arr items => .str (arrPlaceholder items.length)
  | 0, .str s => if msl < s.length then .str (strTake s msl ++ "...") else .str s
  | 0, v => v
  | _ + 1, .str s =>
    if msl < s.length then
      .str (strTake s msl ++ "... (" ++ toString s.length ++ " chars total)")
    else .str s
  | k + 1, .obj fields =>
    if mok < fields.length then
      .obj (setAssoc ((fields.take mok).map (fun p => (p.1, truncVal msl mai mok k p.2)))
        "__truncated__" (.str (toString (fields.length - mok) ++ " more keys")))
    else .obj (fields.map (fun p => (p.1, truncVal msl mai mok k p.2)))
  | k + 1, .arr items =>
    if mai < items.length then
      .arr ((items.take mai).map (truncVal msl mai mok k) ++
        [.str ("... (" ++ toString (items.length - mai) ++ " more items)")])
    else .arr (items.map (truncVal msl mai mok k))
  | _ + 1, v => v

/-- Whether a JSON value is compound (an object or an array). -/
def isCompound : JSON → Bool
  | .obj _ => true
  | .arr _ => true
  | _ => false

/-- `compoundFree k v` holds when no compound node of `v` sits at depth `k`
or beyond (the root of `v` itself being depth `0`). -/
def compoundFree : Nat → JSON → Bool
  | 0, v => ! isCompound v
  | k + 1, .obj fields => fields.all (fun p => compoundFree k p.2)
  | k + 1, .arr items => items.all (compoundFree k)
  | _ + 1, _ => true

/-- Result dict of `read_value`. -/
inductive ReadResult where
  | notFound (error : String) (path : String) : ReadResult
  | found (path : String) (value : JSON) (typeName : String) : ReadResult

/-- `read_value` (src/tools/read_value.py): resolve the pointer, then
truncate the value with the caps (defaults 160 / 6 / 50 / 50). -/
def read_value (document : JSON) (path : String)
    (max_string_length max_depth max_array_items max_object_keys : Nat) : ReadResult :=
  match resolveForTools document path with
  | .error e => .notFound e.msg path
  | .ok v =>
    .found path (truncVal max_string_length max_array_items max_object_keys max_depth v)
      (typeNameOf v)

/-! ### Search engine (src/tools/search_pointer.py) -/

/-- `_escape_pointer_token` (src/tools/search_pointer.py): the same
`replace` chain as `encode_pointer_token`. -/
def escapePointerToken (token : String) : String := encode_pointer_token token

/-- Python `s.lower()` (ASCII case folding; query matching only). -/
def strLower (s : String) : String := String.mk (s.toList.map Char.toLower)

/-- Worker for Python `s.split()` with no separator: split on whitespace
runs, producing no empty words. -/
def wordsAux : List Char → List Char → List String
  | [], acc => if acc.isEmpty then [] else [String.mk acc.reverse]
  | c :: cs, acc =>
    if c.isWhitespace then
      if acc.isEmpty then wordsAux cs [] else String.mk acc.reverse :: wordsAux cs []
    else wordsAux cs (c :: acc)

/-- Python `s.split()`. -/
def pyWords (s : String) : List String := wordsAux s.toList []

/-- `_matches` (src/tools/search_pointer.py): an empty query matches
everything; fuzzy mode requires every whitespace-delimited query word to
occur in the candidate (case-insensitive); exact mode is case-insensitive
substring containment. -/
def pymatches (text query : String) (fuzzy : Bool) : Bool :=
  if query = "" then true
  else
    let textLower := strLower text
    let queryLower := strLower query
    if fuzzy then (pyWords queryLower).all (fun w => containsSub textLower w)
    else containsSub textLower queryLower

/-- `_preview_value` (src/tools/search_pointer.py). -/
def previewValue (v : JSON) (maxLength : Nat) : String :=
  match v with
  | .obj fields => "\x7b...\x7d (" ++ toString fields.length ++ " keys)"
  | .arr items => "[...] (" ++ toString items.length ++ " items)"
  | v =>
    let sv := pyStr v
    if maxLength < sv.length then strTake sv maxLength ++ "..." else sv

/-- One match record: key matches carry the key and a preview of its value,
value matches carry the bounded matched string. -/
inductive SMatch where
  | keyMatch (pointer : String) (key : String) (value_preview : String) : SMatch
  | valueMatch (pointer : String) (matched_value : String) : SMatch

mutual

/-- `_search_recursive` (src/tools/search_pointer.py) on the tree-shaped
documents this program builds (every compound child of a `json.loads` /
patch-engine document is a distinct heap object, so the `id()`-based
visited set of the source never fires on them and is omitted in this
version; the graph-general model with the visited set is `searchRefA`
below).  Returns the grown match list and the Boolean the source returns
(`true` exactly when a `len(matches) >= limit` check fired). -/
def searchRec (query searchType : String) (fuzzy : Bool) (limit maxVL : Nat)
    (obj : JSON) (currentPath : String) (ms : List SMatch) :
    List SMatch × Bool :=
  if limit ≤ ms.length then (ms, true)
  else
    match obj with
    | .obj fields =>
      searchFieldsT query searchType fuzzy limit maxVL fields currentPath ms
    | .arr items =>
      searchItemsT query searchType fuzzy limit maxVL items 0 currentPath ms
    | _ => (ms, false)

/-- The dict loop of `_search_recursive`: key-mode matches the key string,
value-mode matches scalar values only; compound values are recursed into,
and a `true` return (limit hit) aborts the remaining iterations. -/
def searchFieldsT (query searchType : String) (fuzzy : Bool) (limit maxVL : Nat)
    (fields : List (String × JSON)) (currentPath : String) (ms : List SMatch) :
    List SMatch × Bool :=
  match fields with
  | [] => (ms, false)
  | (key, value) :: rest =>
    if limit ≤ ms.length then (ms, true)
    else
      let newPath := currentPath ++ "/" ++ escapePointerToken key
      let ms1 :=
        if searchType = "key" then
          if pymatches key query fuzzy then
            ms ++ [.keyMatch newPath key (previewValue value maxVL)]
          else ms
        else if searchType = "value" ∧ isCompound value = false then
          if pymatches (pyStr value) query fuzzy then
            ms ++ [.valueMatch newPath (strTake (pyStr value) maxVL)]
          else ms
        else ms
      if isCompound value then
        match searchRec query searchType fuzzy limit maxVL value newPath ms1 with
        | (m, true) => (m, true)
        | (m, false) =>
          searchFieldsT query searchType fuzzy limit maxVL rest currentPath m
      else searchFieldsT query searchType fuzzy limit maxVL rest currentPath ms1

/-- The list loop of `_search_recursive`: only value-mode matching applies
to items; paths extend with the item index. -/
def searchItemsT (query searchType : String) (fuzzy : Bool) (limit maxVL : Nat)
    (items : List JSON) (idx : Nat) (currentPath : String) (ms : List SMatch) :
    List SMatch × Bool :=
  match items with
  | [] => (ms, false)
  | item :: rest =>
    if limit ≤ ms.length then (ms, true)
    else
      let newPath := currentPath ++ "/" ++ toString idx
      let ms1 :=
        if searchType = "value" ∧ isCompound item = false then
          if pymatches (pyStr item) query fuzzy then
            ms ++ [.valueMatch newPath (strTake (pyStr item) maxVL)]
          else ms
        else ms
      if isCompound item then
        match searchRec query searchType fuzzy limit maxVL item newPath ms1 with
        | (m, true) => (m, true)
        | (m, false) =>
          searchItemsT query searchType fuzzy limit maxVL rest (idx + 1) currentPath m
      else searchItemsT query searchType fuzzy limit maxVL rest (idx + 1) currentPath ms1

end

/-- Result dict of `search_pointer` (`stype` models the `type` member). -/
structure SearchResult where
  query : String
  stype : String
  fuzzy : Bool
  matchesL : List SMatch
  count : Nat
  truncated : Bool

/-- `search_pointer` (src/tools/search_pointer.py) on a tree-shaped
document (source defaults: type `"value"`, fuzzy `False`, limit 20,
preview bound 120). -/
def search_pointer (document : JSON) (query : String) (search_type : String)
    (fuzzy_match : Bool) (limit : Nat) (max_value_length : Nat) : SearchResult :=
  let r := searchRec query search_type fuzzy_match limit max_value_length document "" []
  { query := query, stype := search_type, fuzzy := fuzzy_match,
    matchesL := r.1, count := r.1.length, truncated := r.2 }

/-! ### Search over an explicit heap (arena), the graph-general model

Python documents live on a heap of `dict` / `list` objects identified by
`id()`; a graph-shaped (even self-referential) structure arises when a
container reaches an object that is already one of its ancestors.  The
arena makes this expressible: compound nodes are numbered slots of a list
and a container's children are either inline scalars or slot indices, so a
node may reference itself.  `seen` is the source's set of visited `id()`s.
The recursion is fuelled; `search_pointer_arena` supplies fuel
`len(arena) + 1`, which the adequacy theorem shows can never run out —
this is exactly the termination argument for the Python recursion. -/

/-- A scalar heap value. -/
inductive Prim where
  | pnull : Prim
  | pbool (b : Bool) : Prim
  | pint (n : Int) : Prim
  | pstr (s : String) : Prim

/-- Python `str` of a scalar heap value. -/
def primStr : Prim → String
  | .pnull => "None"
  | .pbool true => "True"
  | .pbool false => "False"
  | .pint n => toString n
  | .pstr s => s

/-- A child held in a container: an inline scalar or the `id()` of a
compound heap node. -/
inductive RefA where
  | prim (p : Prim) : RefA
  | node (idx : Nat) : RefA

/-- A compound heap node: a dict of named children or a list of children. -/
inductive ArenaNode where
  | aobj (fields : List (String × RefA)) : ArenaNode
  | aarr (items : List RefA) : ArenaNode

/-- `_preview_value` on a heap child. -/
def previewValueA (A : List ArenaNode) (r : RefA) (maxLength : Nat) : String :=
  match r with
  | .node j =>
    match A[j]? with
    | some (.aobj fields) => "\x7b...\x7d (" ++ toString fields.length ++ " keys)"
    | some (.aarr items) => "[...] (" ++ toString items.length ++ " items)"
    | none => ""
  | .prim p =>
    let sv := primStr p
    if maxLength < sv.length then strTake sv maxLength ++ "..." else sv

/-- The dict loop of `_search_recursive` over the heap.  `F` is the
recursive search call used for compound children (the caller passes the
search at the next smaller fuel); the match list and visited set are
threaded through the iterations, and a `true` return aborts the loop. -/
def searchFieldsGo (A : List ArenaNode) (query searchType : String) (fuzzy : Bool)
    (limit maxVL : Nat)
    (F : Nat → String → List SMatch → List Nat → Option (List SMatch × List Nat × Bool)) :
    List (String × RefA) → String → List SMatch → List Nat →
      Option (List SMatch × List Nat × Bool)
  | [], _, ms, seen => some (ms, seen, false)
  | (key, value) :: rest, currentPath, ms, seen =>
    if limit ≤ ms.length then some (ms, seen, true)
    else
      let newPath := currentPath ++ "/" ++ escapePointerToken key
      match value with
      | .prim p =>
        let ms1 :=
          if searchType = "key" then
            if pymatches key query fuzzy then
              ms ++ [.keyMatch newPath key (previewValueA A (.prim p) maxVL)]
            else ms
          else if searchType = "value" then
            if pymatches (primStr p) query fuzzy then
              ms ++ [.valueMatch newPath (strTake (primStr p) maxVL)]
            else ms
          else ms
        searchFieldsGo A query searchType fuzzy limit maxVL F rest currentPath ms1 seen
      | .node j =>
        let ms1 :=
          if searchType = "key" then
            if pymatches key query fuzzy then
              ms ++ [.keyMatch newPath key (previewValueA A (.node j) maxVL)]
            else ms
          else ms
        match F j newPath ms1 seen with
        | none => none
        | some (m, sn, true) => some (m, sn, true)
        | some (m, sn, false) =>
          searchFieldsGo A query searchType fuzzy limit maxVL F rest currentPath m sn

/-- The list loop of `_search_recursive` over the heap. -/
def searchItemsGo (A : List ArenaNode) (query searchType : String) (fuzzy : Bool)
    (limit maxVL : Nat)
    (F : Nat → String → List SMatch → List Nat → Option (List SMatch × List Nat × Bool)) :
    List RefA → Nat → String → List SMatch → List Nat →
      Option (List SMatch × List Nat × Bool)
  | [], _, _, ms, seen => some (ms, seen, false)
  | item :: rest, idx, currentPath, ms, seen =>
    if limit ≤ ms.length then some (ms, seen, true)
    else
      let newPath := currentPath ++ "/" ++ toString idx
      match item with
      | .prim p =>
        let ms1 :=
          if searchType = "value" then
            if pymatches (primStr p) query fuzzy then
              ms ++ [.valueMatch newPath (strTake (primStr p) maxVL)]
            else ms
          else ms
        searchItemsGo A query searchType fuzzy limit maxVL F rest (idx + 1) currentPath
          ms1 seen
      | .node j =>
        match F j newPath ms seen with
        | none => none
        | some (m, sn, true) => some (m, sn, true)
        | some (m, sn, false) =>
          searchItemsGo A query searchType fuzzy limit maxVL F rest (idx + 1) currentPath m sn

/-- `_search_recursive` over the heap: fuelled recursion on a child
reference.  Entry order as in the source: the limit check first, then the
visited-set check (a scalar is never in the visited set: live `id()`s are
distinct and only compounds are added), then the node is marked visited and
its children are swept. -/
def searchRefA (A : List ArenaNode) (query searchType : String) (fuzzy : Bool)
    (limit maxVL : Nat) : Nat → RefA → String → List SMatch → List Nat →
      Option (List SMatch × List Nat × Bool)
  | 0, _, _, _, _ => none
  | fuel + 1, r, currentPath, ms, seen =>
    if limit ≤ ms.length then some (ms, seen, true)
    else
      match r with
      | .prim _ => some (ms, seen, false)
      | .node idx =>
        if idx ∈ seen then some (ms, seen, false)
        else
          let seen1 := idx :: seen
          match A[idx]? with
          | none => some (ms, seen1, false)
          | some (.aobj fields) =>
            searchFieldsGo A query searchType fuzzy limit maxVL
              (fun j p m s =>
                searchRefA A query searchType fuzzy limit maxVL fuel (.node j) p m s)
              fields currentPath ms seen1
          | some (.aarr items) =>
            searchItemsGo A query searchType fuzzy limit maxVL
              (fun j p m s =>
                searchRefA A query searchType fuzzy limit maxVL fuel (.node j) p m s)
              items 0 currentPath ms seen1

/-- `search_pointer` over the heap: run the recursion from the root with
fuel `len(arena) + 1` and assemble the result dict. -/
def search_pointer_arena (A : List ArenaNode) (root : RefA) (query : String)
    (search_type : String) (fuzzy_match : Bool) (limit : Nat)
    (max_value_length : Nat) : Option SearchResult :=
  (searchRefA A query search_type fuzzy_match limit max_value_length
      (A.length + 1) root "" [] []).map
    (fun r =>
      { query := query, stype := search_type, fuzzy := fuzzy_match,
        matchesL := r.1, count := r.1.length, truncated := r.2.2 })

/-- How many heap slots are not yet in the visited set. -/
def unvisited (A : List ArenaNode) (seen : List Nat) : Nat :=
  ((List.range A.length).filter (fun i => decide (i ∉ seen))).length

/-! ### Guidance baton (src/tools/update_guidance.py) -/

/-- The guidance record a finalize call materializes. -/
structure Guidance where
  last_processed_path : String
  current_context : String
  pending_action : String
  extracted_entities_count : Int

/-- The keyword arguments of `update_guidance`; each is optional and
defaults as in the source (`**input` requires the input dict's keys to be
among these four — valid input, as the spec's finalization property
assumes). -/
structure GuidanceInput where
  last_processed_path : Option String := none
  current_context : Option String := none
  pending_action : Option String := none
  extracted_entities_count : Option Int := none

/-- Return dict of `update_guidance`: `{finalized: true, guidance: {...}}`. -/
structure UGResult where
  finalized : Bool
  guidance : Guidance

/-- `update_guidance` (src/tools/update_guidance.py): defaults `""`, `""`,
`""`, `0`. -/
def update_guidance (gi : GuidanceInput) : UGResult :=
  { finalized := true,
    guidance :=
      { last_processed_path := gi.last_processed_path.getD "",
        current_context := gi.current_context.getD "",
        pending_action := gi.pending_action.getD "",
        extracted_entities_count := gi.extracted_entities_count.getD 0 } }

/-! ### Tool dispatcher and orchestrator (src/agent/nodes.py)

`execute_tools_node` parses the last model message with `json.loads` and
dispatches its actions; the parse outcome is carried here as `LLMContent`
(the JSON text parser itself is Python's standard library).  Each node
returns a dict of state keys to update; that dict is the `Delta` record,
whose `none` fields are the absent keys, and LangGraph's merge is
`applyDelta`.  The external model is an oracle giving the content of each
model call; message/prompt bookkeeping is out of scope (spec §1). -/

/-- The `input` dict of one model-requested action: every member any tool
reads with `.get`, each optional (`qtype` models the `type` member,
`guidanceArgs` the finalize kwargs). -/
structure ActionInput where
  path : Option String := none
  max_string_length : Option Nat := none
  max_depth : Option Nat := none
  max_array_items : Option Nat := none
  max_object_keys : Option Nat := none
  query : Option String := none
  qtype : Option String := none
  fuzzy_match : Option Bool := none
  limit : Option Nat := none
  max_value_length : Option Nat := none
  patches : Option (List PatchOp) := none
  guidanceArgs : GuidanceInput := {}

/-- One entry of the model's `actions` list. -/
structure ActionItem where
  action : Option String := none
  input : ActionInput := {}

/-- The `result` member of one per-action record. -/
inductive ToolResult where
  | inspectR (r : InspectResult) : ToolResult
  | readR (r : ReadResult) : ToolResult
  | searchR (r : SearchResult) : ToolResult
  | patchR (r : PatchResult) : ToolResult
  | guidanceR (r : UGResult) : ToolResult
  | errorR (msg : String) : ToolResult

/-- One per-action record of `actions_results` (`inputEcho` models the
`input` member, absent in the solo-finalize record). -/
structure ActionResult where
  action : Option String
  inputEcho : Option ActionInput
  result : ToolResult

/-- Error recorded for a finalize action mixed into a multi-action turn. -/
def mixedFinalizeMsg : String :=
  "update_guidance must be the ONLY action when finalizing. Other actions were present in the same response."

/-- One iteration of the dispatch loop of `execute_tools_node`: run the
named tool against the threaded working document and return the per-action
record together with the document subsequent actions see (only a successful
`apply_patches` replaces it; a mixed-in `update_guidance` and an unknown
action produce error records and leave it untouched). -/
def dispatchOne (schema : Option JSON) (doc : JSON) (a : ActionItem) :
    ActionResult × JSON :=
  match a.action with
  | some "inspect_keys" =>
    (⟨a.action, some a.input, .inspectR (inspect_keys doc (a.input.path.getD ""))⟩, doc)
  | some "read_value" =>
    (⟨a.action, some a.input, .readR (read_value doc (a.input.path.getD "")
      (a.input.max_string_length.getD 160) (a.input.max_depth.getD 6)
      (a.input.max_array_items.getD 50) (a.input.max_object_keys.getD 50))⟩, doc)
  | some "search_pointer" =>
    (⟨a.action, some a.input, .searchR (search_pointer doc (a.input.query.getD "")
      (a.input.qtype.getD "value") (a.input.fuzzy_match.getD false)
      (a.input.limit.getD 20) (a.input.max_value_length.getD 120))⟩, doc)
  | some "apply_patches" =>
    let r := apply_patches doc (a.input.patches.getD []) schema
    (⟨a.action, some a.input, .patchR r⟩,
      match r with
      | .success d _ _ => d
      | .failureRes _ _ => doc)
  | some "update_guidance" =>
    (⟨a.action, some a.input, .errorR mixedFinalizeMsg⟩, doc)
  | other =>
    (⟨a.action, some a.input, .errorR ("Unknown action: " ++ other.getD "None")⟩, doc)

/-- The dispatch loop: actions strictly in list order against the threaded
document; all per-action records are collected in order. -/
def dispatchActions (schema : Option JSON) (doc : JSON) :
    List ActionItem → JSON × List ActionResult
  | [] => (doc, [])
  | a :: rest =>
    let r1 := dispatchOne schema doc a
    let r2 := dispatchActions schema r1.2 rest
    (r2.1, r1.1 :: r2.2)

/-- Parse outcome of the model's most recent message. -/
inductive LLMContent where
  | noMessage : LLMContent
  | unparsable (err : String) : LLMContent
  | parsed (think : String) (actions : List ActionItem) : LLMContent

/-- The dict of state updates a node returns; `none` fields are keys the
node did not include. -/
structure Delta where
  error : Option String := none
  guidance : Option Guidance := none
  is_chunk_finalized : Option Bool := none
  json_document : Option JSON := none
  actions_results : Option (List ActionResult) := none

/-- The non-finalize outcome of `execute_tools_node`: the threaded document
and the ordered result list. -/
def dispatchDelta (schema : Option JSON) (doc : JSON) (actions : List ActionItem) :
    Delta :=
  { json_document := some (dispatchActions schema doc actions).1,
    actions_results := some (dispatchActions schema doc actions).2 }

/-- The finalization-gate condition of `execute_tools_node`:
`len(actions) == 1 and actions[0].get("action") == "update_guidance"`. -/
def isSoloUG : List ActionItem → Bool
  | [a] => decide (a.action = some "update_guidance")
  | _ => false

/-- `execute_tools_node` (src/agent/nodes.py) from the parsed reply on: no
reply or an unparsable reply sets a fatal `error`; an empty action list
sets the fatal `"No actions specified by the LLM."`; exactly one
`update_guidance` action finalizes the chunk and installs the returned
guidance; any other shape dispatches the actions in order. -/
def execute_tools_delta (content : LLMContent) (doc : JSON) (schema : Option JSON) :
    Delta :=
  match content with
  | .noMessage => { error := some "No LLM response found." }
  | .unparsable e => { error := some ("Error parsing LLM response: " ++ e) }
  | .parsed _ [] => { error := some "No actions specified by the LLM." }
  | .parsed _ [a] =>
    if a.action = some "update_guidance" then
      { guidance := some (update_guidance a.input.guidanceArgs).guidance,
        is_chunk_finalized := some true,
        actions_results := some [⟨some "update_guidance", none,
          .guidanceR (update_guidance a.input.guidanceArgs)⟩] }
    else dispatchDelta schema doc [a]
  | .parsed _ acts => dispatchDelta schema doc acts

/-- The run state threaded through the graph (the members the claims in
scope touch; `text`, `current_chunk` and the message list belong to the
out-of-scope chunking/prompting collaborators). -/
structure AgentState where
  chunks : List String
  current_chunk_idx : Nat
  target_schema : Option JSON
  json_document : JSON
  guidance : Option Guidance
  is_chunk_finalized : Bool
  iteration_count : Nat
  max_iterations : Nat
  error : Option String
  actions_results : List ActionResult

/-- LangGraph's state merge: a key present in the returned dict replaces
the state value, an absent key leaves it unchanged. -/
def applyDelta (st : AgentState) (d : Delta) : AgentState :=
  { st with
    error := (match d.error with | some e => some e | none => st.error),
    guidance := (match d.guidance with | some g => some g | none => st.guidance),
    is_chunk_finalized := d.is_chunk_finalized.getD st.is_chunk_finalized,
    json_document := d.json_document.getD st.json_document,
    actions_results := d.actions_results.getD st.actions_results }

/-- Outcome of the `has_more_chunks` conditional edge. -/
inductive PrepRoute where
  | call_llm : PrepRoute
  | end_run : PrepRoute
deriving DecidableEq

/-- `has_more_chunks` (src/agent/nodes.py): a set `error` ends the run
before the remaining-chunk check. -/
def has_more_chunks (st : AgentState) : PrepRoute :=
  if st.error.isSome then .end_run
  else if st.current_chunk_idx < st.chunks.length then .call_llm
  else .end_run

/-- Outcome of the `is_chunk_done` conditional edge. -/
inductive DoneRoute where
  | finalize_chunk : DoneRoute
  | call_llm : DoneRoute
deriving DecidableEq

/-- `is_chunk_done` (src/agent/nodes.py): finalize when the chunk was
finalized, the iteration budget is spent, or an error is set. -/
def is_chunk_done (st : AgentState) : DoneRoute :=
  if st.is_chunk_finalized then .finalize_chunk
  else if st.max_iterations ≤ st.iteration_count then .finalize_chunk
  else if st.error.isSome then .finalize_chunk
  else .call_llm

/-- `prepare_chunk_node`: when a chunk remains, reset the per-chunk fields
(`iteration_count` to 0, `is_chunk_finalized` to false, the result buffer
to empty); past the last chunk it only clears the (unmodelled) current
chunk text.  Prompt construction is an external collaborator. -/
def prepare_chunk (st : AgentState) : AgentState :=
  if st.current_chunk_idx < st.chunks.length then
    { st with actions_results := [], is_chunk_finalized := false, iteration_count := 0 }
  else st

/-- `finalize_chunk_node`: advance to the next chunk, clear the finalized
flag and the result buffer. -/
def finalize_chunk_node (st : AgentState) : AgentState :=
  { st with
    current_chunk_idx := st.current_chunk_idx + 1,
    is_chunk_finalized := false, actions_results := [] }

/-- `call_llm_node`'s state effect: each model invocation increments
`iteration_count` by exactly one (the reply lands in the message list,
consumed by the following `execute_tools_node`). -/
def call_llm_increment (st : AgentState) : AgentState :=
  { st with iteration_count := st.iteration_count + 1 }

/-- One `call_llm → execute_tools` pass of the graph; the oracle supplies
the parsed content of this call's model reply. -/
def chunkPass (content : LLMContent) (st : AgentState) : AgentState :=
  applyDelta (call_llm_increment st)
    (execute_tools_delta content st.json_document st.target_schema)

/-- The `call_llm → execute_tools → is_chunk_done` loop of the graph,
fuelled; fuel `max_iterations + 1` can never run out (theorem C4).
Returns the state at which `is_chunk_done` chose `finalize_chunk`, with
the number of model calls made. -/
def runChunkFuel (oracle : Nat → LLMContent) : Nat → AgentState →
    Option (AgentState × Nat)
  | 0, _ => none
  | fuel + 1, st =>
    match is_chunk_done (chunkPass (oracle st.iteration_count) st) with
    | .finalize_chunk => some (chunkPass (oracle st.iteration_count) st, 1)
    | .call_llm =>
      (runChunkFuel oracle fuel (chunkPass (oracle st.iteration_count) st)).map
        (fun p => (p.1, p.2 + 1))

/-- One chunk of the orchestrator: `prepare_chunk`, the model loop, then
`finalize_chunk_node` advancing to the next chunk. -/
def processChunk (oracle : Nat → LLMContent) (st : AgentState) :
    Option (AgentState × Nat) :=
  (runChunkFuel oracle ((prepare_chunk st).max_iterations + 1) (prepare_chunk st)).map
    (fun p => (finalize_chunk_node p.1, p.2))

/-- A model turn that parses, requests at least one action, and is not a
lone `update_guidance`: such a turn neither finalizes the chunk nor sets
an error. -/
def goodTurn : LLMContent → Bool
  | .parsed _ [] => false
  | .parsed _ [a] => decide (¬ a.action = some "update_guidance")
  | .parsed _ (_ :: _ :: _) => true
  | _ => false

/-- A bare `inspect_keys` action. -/
def inspectActW : ActionItem := { action := some "inspect_keys" }

/-- A bare `update_guidance` action. -/
def ugActW : ActionItem := { action := some "update_guidance" }

/-- An oracle that always asks for one `inspect_keys` action (it never
finalizes and never errors). -/
def oracleC4W : Nat → LLMContent := fun _ => .parsed "" [inspectActW]

/-- A run state with one chunk and `max_iterations = 0`. -/
def stC4W : AgentState :=
  { chunks := ["chunk"], current_chunk_idx := 0, target_schema := none,
    json_document := .obj [], guidance := none, is_chunk_finalized := false,
    iteration_count := 0, max_iterations := 0, error := none, actions_results := [] }

/-- The same run state with `max_iterations = 2`. -/
def stC4W2 : AgentState := { stC4W with max_iterations := 2 }

/-- A turn mixing `update_guidance` with another action. -/
def actsC1W : List ActionItem := [ugActW, inspectActW]

/-- A 101-character string, used to exercise the preview cap of
`inspect_keys`. -/
def s101W : String := String.mk (List.replicate 101 'a')

/-- A document holding `s101W` under key `"a"`. -/
def docC8W : JSON := .obj [("a", .str s101W)]

/-- The preview length `inspect_keys` reports for the scalar at a path
(`0` when the result is not a scalar report). -/
def inspectPreviewLen (document : JSON) (path : String) : Nat :=
  match inspect_keys document path with
  | .scalarInfo _ _ v => v.length
  | _ => 0

/-- A three-level nested document for the read-truncation witness. -/
def docC5W : JSON := .obj [("a", .obj [("b", .obj [("c", .num 1)])])]

/-- Scenario B's patch: `{"op": "test", "path": "/x", "value": 1}`. -/
def testPatchW : PatchOp :=
  { op := some "test", path := some "/x", value := some (.num 1) }

/-- Scenario A's patch: `{"op": "add", "path": "/name", "value": "John"}`. -/
def addPatchW : PatchOp :=
  { op := some "add", path := some "/name", value := some (.str "John") }

/-- A patch whose application (not validation) fails on the empty document:
`replace` requires the target member to exist. -/
def replPatchW : PatchOp :=
  { op := some "replace", path := some "/x", value := some (.num 1) }

/-! ### Theorems -/

theorem startsWithL_nil (l : List Char) : startsWithL [] l = true := by
  cases l <;> rfl

theorem pyReplaceAux_single (a : Char) (r : List Char) :
    ∀ (fuel : Nat) (l : List Char), l.length ≤ fuel →
      pyReplaceAux [a] r fuel l = l.flatMap (fun c => if c = a then r else [c]) := by
  intro fuel
  induction fuel with
  | zero =>
    intro l hl
    have : l = [] := List.eq_nil_of_length_eq_zero (Nat.le_zero.mp hl)
    subst this; rfl
  | succ n ih =>
    intro l hl
    cases l with
    | nil => rfl
    | cons c cs =>
      by_cases hca : c = a
      · subst hca
        have hsw : startsWithL [c] (c :: cs) = true := by
          simp [startsWithL, startsWithL_nil]
        simp only [pyReplaceAux, List.drop, ne_eq, List.cons_ne_nil, not_false_iff, true_and,
          hsw, and_true, if_pos, List.length_cons] at *
        rw [ih cs (Nat.le_of_succ_le_succ hl)]
        simp
      · have hsw : startsWithL [a] (c :: cs) = false := by
          simp [startsWithL]
          intro h; exact absurd h.symm hca
        simp only [pyReplaceAux, hsw, Bool.false_eq_true, and_false, if_neg, not_false_iff,
          List.length_cons] at *
        rw [ih cs (Nat.le_of_succ_le_succ hl)]
        simp [hca]

theorem pyReplace_single (a : Char) (r : List Char) (l : List Char) :
    pyReplace [a] r l = l.flatMap (fun c => if c = a then r else [c]) :=
  pyReplaceAux_single a r l.length l (Nat.le_refl _)

/-- The two sequential `replace` passes of `encode_pointer_token` amount to
one pass of `encChar`. -/
theorem encode_as_flatMap (l : List Char) :
    pyReplace ['/'] ['~', '1'] (pyReplace ['~'] ['~', '0'] l) = l.flatMap encChar := by
  rw [pyReplace_single, pyReplace_single, List.flatMap_assoc]
  apply List.flatMap_congr
  intro c _
  by_cases h1 : c = '~'
  · subst h1; rfl
  · by_cases h2 : c = '/'
    · subst h2; rfl
    · simp [encChar, h1, h2]

/-- First decoding pass (`~1` → `/`) over an encoded list: it undoes the
`/` escape and leaves the `~` escape in place. -/
theorem decode_first_pass :
    ∀ (s : List Char) (fuel : Nat), (s.flatMap encChar).length ≤ fuel →
      pyReplaceAux ['~', '1'] ['/'] fuel (s.flatMap encChar) = s.flatMap tilChar := by
  intro s
  induction s with
  | nil => intro fuel _; cases fuel <;> rfl
  | cons c t ih =>
    intro fuel hl
    by_cases h1 : c = '~'
    · subst h1
      have hexp : ((('~' : Char) :: t).flatMap encChar) = '~' :: '0' :: t.flatMap encChar := by
        simp [encChar]
      rw [hexp] at hl ⊢
      match fuel, hl with
      | fuel + 2, hl =>
        have hsw : startsWithL ['~', '1'] ('~' :: '0' :: t.flatMap encChar) = false := by
          simp [startsWithL]
        have hsw2 : startsWithL ['~', '1'] ('0' :: t.flatMap encChar) = false := by
          simp [startsWithL]
        simp only [pyReplaceAux, hsw, hsw2, Bool.false_eq_true, and_false, if_neg,
          not_false_iff]
        rw [ih fuel (by simpa using Nat.le_of_succ_le_succ (Nat.le_of_succ_le_succ hl))]
        simp [tilChar]
    · by_cases h2 : c = '/'
      · subst h2
        have hexp : ((('/' : Char) :: t).flatMap encChar) = '~' :: '1' :: t.flatMap encChar := by
          simp [encChar]
        rw [hexp] at hl ⊢
        match fuel, hl with
        | fuel + 1, hl =>
          have hsw : startsWithL ['~', '1'] ('~' :: '1' :: t.flatMap encChar) = true := by
            simp [startsWithL, startsWithL_nil]
          simp only [pyReplaceAux, hsw, ne_eq, List.cons_ne_nil, not_false_iff, true_and,
            and_true, if_pos, List.length_cons, List.drop]
          rw [ih fuel (by
            have := Nat.le_of_succ_le_succ hl
            simpa using Nat.le_of_succ_le this)]
          simp [tilChar, h1]
      · have hexp : ((c :: t).flatMap encChar) = c :: t.flatMap encChar := by
          simp [encChar, h1, h2]
        rw [hexp] at hl ⊢
        match fuel, hl with
        | fuel + 1, hl =>
          have hsw : startsWithL ['~', '1'] (c :: t.flatMap encChar) = false := by
            simp [startsWithL]
            intro h; exact absurd h.symm h1
          simp only [pyReplaceAux, hsw, Bool.false_eq_true, and_false, if_neg, not_false_iff]
          rw [ih fuel (by simpa using Nat.le_of_succ_le_succ hl)]
          simp [tilChar, h1]

/-- Second decoding pass (`~0` → `~`) over the output of the first pass:
it undoes the `~` escape, recovering the original list. -/
theorem decode_second_pass :
    ∀ (s : List Char) (fuel : Nat), (s.flatMap tilChar).length ≤ fuel →
      pyReplaceAux ['~', '0'] ['~'] fuel (s.flatMap tilChar) = s := by
  intro s
  induction s with
  | nil => intro fuel _; cases fuel <;> rfl
  | cons c t ih =>
    intro fuel hl
    by_cases h1 : c = '~'
    · subst h1
      have hexp : ((('~' : Char) :: t).flatMap tilChar) = '~' :: '0' :: t.flatMap tilChar := by
        simp [tilChar]
      rw [hexp] at hl ⊢
      match fuel, hl with
      | fuel + 1, hl =>
        have hsw : startsWithL ['~', '0'] ('~' :: '0' :: t.flatMap tilChar) = true := by
          simp [startsWithL, startsWithL_nil]
        simp only [pyReplaceAux, hsw, ne_eq, List.cons_ne_nil, not_false_iff, true_and,
          and_true, if_pos, List.length_cons, List.drop]
        rw [ih fuel (by
          have := Nat.le_of_succ_le_succ hl
          simpa using Nat.le_of_succ_le this)]
        rfl
    · have hexp : ((c :: t).flatMap tilChar) = c :: t.flatMap tilChar := by
        simp [tilChar, h1]
      rw [hexp] at hl ⊢
      match fuel, hl with
      | fuel + 1, hl =>
        have hsw : startsWithL ['~', '0'] (c :: t.flatMap tilChar) = false := by
          simp [startsWithL]
          intro h; exact absurd h.symm h1
        simp only [pyReplaceAux, hsw, Bool.false_eq_true, and_false, if_neg, not_false_iff]
        rw [ih fuel (by simpa using Nat.le_of_succ_le_succ hl)]

/-- C7: for every string `s` — in particular any string containing both `~`
and `/` — `decode_pointer_token (encode_pointer_token s) = s`, where the
encoder escapes `~` to `~0` before `/` to `~1` and the decoder reverses in
the correct order (`~1` to `/`, then `~0` to `~`). -/
theorem c7_pointer_roundtrip (s : String) :
    decode_pointer_token (encode_pointer_token s) = s := by
  cases s with
  | mk data =>
    show String.mk (pyReplace ['~', '0'] ['~'] (pyReplace ['~', '1'] ['/']
      (pyReplace ['/'] ['~', '1'] (pyReplace ['~'] ['~', '0'] data)))) = String.mk data
    congr 1
    rw [encode_as_flatMap data]
    have h1 : pyReplace ['~', '1'] ['/'] (data.flatMap encChar) = data.flatMap tilChar := by
      rw [pyReplace]; exact decode_first_pass data _ (Nat.le_refl _)
    rw [h1, pyReplace]
    exact decode_second_pass data _ (Nat.le_refl _)

/-! ### Patch engine theorems (C2, C3, C10) -/

theorem findFailedAux_spec :
    ∀ (ps : List PatchOp) (doc : JSON) (k : Nat) (e : PatchErr),
      applyAllOps doc ps = .error e →
      ∃ i, findFailedAux doc ps k = some (k + i) ∧ i < ps.length ∧
        ∃ d, applyAllOps doc (ps.take i) = .ok d ∧
          ∃ p, ps[i]? = some p ∧ ∃ e2, applyOne d p = .error e2 := by
  intro ps
  induction ps with
  | nil => intro doc k e h; simp [applyAllOps] at h
  | cons p rest ih =>
    intro doc k e h
    cases happ : applyOne doc p with
    | error e1 =>
      refine ⟨0, ?_, by simp, doc, by simp [applyAllOps], p, by simp, e1, happ⟩
      simp [findFailedAux, happ]
    | ok d =>
      simp only [applyAllOps, happ] at h
      obtain ⟨i, hfind, hlen, d2, hpre, p2, hget, e2, hfail⟩ := ih d (k + 1) e h
      refine ⟨i + 1, ?_, by simpa using Nat.succ_lt_succ hlen, d2, ?_, p2, ?_, e2, hfail⟩
      · simp only [findFailedAux, happ, hfind]
        congr 1
        omega
      · rw [List.take_succ_cons]
        simp only [applyAllOps, happ]
        exact hpre
      · simpa using hget

theorem findInvalidOp_spec :
    ∀ (ps : List PatchOp) (base j : Nat) (msg : String),
      findInvalidOp ps base = some (j, msg) →
      ∃ i, j = base + i ∧ i < ps.length ∧
        ∃ p, ps[i]? = some p ∧ opIsValid p = false ∧ msg = invalidOpMsg p j ∧
          ∀ k q, k < i → ps[k]? = some q → opIsValid q = true := by
  intro ps
  induction ps with
  | nil => intro base j msg h; simp [findInvalidOp] at h
  | cons p rest ih =>
    intro base j msg h
    by_cases hv : opIsValid p = true
    · have htest : ¬ p.op = some "test" := by
        intro hop
        rw [opIsValid, hop] at hv
        simp [validOps] at hv
      rw [findInvalidOp, if_neg (by simp [hv]), if_neg htest] at h
      obtain ⟨i, hj, hlen, q, hget, hval, hmsg, hmin⟩ := ih (base + 1) j msg h
      refine ⟨i + 1, by omega, by simpa using Nat.succ_lt_succ hlen, q, by simpa using hget,
        hval, hmsg, ?_⟩
      intro k q2 hk hget2
      cases k with
      | zero =>
        simp at hget2
        subst hget2
        exact hv
      | succ k2 =>
        exact hmin k2 q2 (by omega) (by simpa using hget2)
    · rw [findInvalidOp, if_pos (by simpa using hv)] at h
      have h2 : base = j ∧ invalidOpMsg p base = msg := by
        constructor
        · exact congrArg Prod.fst (Option.some.inj h)
        · exact congrArg Prod.snd (Option.some.inj h)
      obtain ⟨hj, hmsg⟩ := h2
      refine ⟨0, by omega, by simp, p, by simp, by simpa using hv, by rw [← hj, ← hmsg], ?_⟩
      intro k q hk _
      omega

/-- Inversion for a successful `apply_patches`: the returned document is
the full sequential application of every operation and the count is the
list length. -/
theorem apply_patches_success_inv (doc : JSON) (ps : List PatchOp) (sch : Option JSON)
    (d : JSON) (n : Nat) (m : Option String)
    (h : apply_patches doc ps sch = .success d n m) :
    applyAllOps doc ps = .ok d ∧ n = ps.length := by
  cases ps with
  | nil =>
    rw [apply_patches] at h
    cases h
    exact ⟨rfl, rfl⟩
  | cons p rest =>
    rw [apply_patches] at h
    cases hval : findInvalidOp (p :: rest) 0 with
    | some pr => rw [hval] at h; cases h
    | none =>
      rw [hval] at h
      cases happ : applyAllOps doc (p :: rest) with
      | ok d2 =>
        rw [happ] at h
        injection h with hd hn hm
        exact ⟨by rw [hd], hn.symm⟩
      | error e => rw [happ] at h; cases h

/-- C2: for every input document and patch list, if `apply_patches` reports
failure the caller's document is left equal to its pre-call value (the
result exposes no document at all, and the call does not write the caller's
object); and a success is always a full application: the returned document
is every operation applied in order, with `applied_count` the whole list
length — never a partially patched document. -/
theorem c2_atomicity (doc : JSON) (ps : List PatchOp) (sch : Option JSON) :
    (∀ e i, apply_patches doc ps sch = .failureRes e i →
      (apply_patches doc ps sch).documentOf = none ∧
      (apply_patches_effect doc ps sch).2 = doc) ∧
    (∀ d n m, apply_patches doc ps sch = .success d n m →
      applyAllOps doc ps = .ok d ∧ n = ps.length ∧
      (apply_patches_effect doc ps sch).2 = doc) := by
  constructor
  · intro e i h
    rw [apply_patches_effect, h]
    exact ⟨rfl, rfl⟩
  · intro d n m h
    obtain ⟨h1, h2⟩ := apply_patches_success_inv doc ps sch d n m h
    exact ⟨h1, h2, rfl⟩

/-- Witness for C2 at Scenario A: `{} + add /name "John"` succeeds and is
the full application, with the caller's value untouched. -/
theorem c2_witness :
    applyAllOps (JSON.obj []) [addPatchW] = .ok (JSON.obj [("name", JSON.str "John")]) ∧
    1 = [addPatchW].length ∧
    (apply_patches_effect (JSON.obj []) [addPatchW] none).2 = JSON.obj [] :=
  (c2_atomicity (JSON.obj []) [addPatchW] none).2
    (JSON.obj [("name", JSON.str "John")]) 1 none rfl

/-- C3: a failing `apply_patches` call reports `failed_at_index` as the
index of the first operation that could not be applied.  Scenario B: the
single patch `{"op": "test", ...}` fails during validation with an error
naming `test` and index 0.  In general: when some operation has an
unrecognized (or forbidden) `op`, validation aborts with the index of the
first such operation (every earlier operation is valid) and its message;
otherwise the failure happened while applying, and the reported index `i`
is the replay divergence point: the first `i` operations apply cleanly from
the original document and operation `i` fails on the result. -/
theorem c3_failed_index :
    (∃ e, apply_patches (.obj []) [testPatchW] none = .failureRes e 0 ∧
      containsSub e "test" = true) ∧
    (∀ (doc : JSON) (ps : List PatchOp) (sch : Option JSON) (e : String) (i : Nat),
      apply_patches doc ps sch = .failureRes e i →
      (match findInvalidOp ps 0 with
       | some (j, msg) => i = j ∧ e = msg ∧
         ∃ p, ps[j]? = some p ∧ opIsValid p = false ∧
           ∀ k q, k < j → ps[k]? = some q → opIsValid q = true
       | none =>
         i < ps.length ∧ ∃ d, applyAllOps doc (ps.take i) = .ok d ∧
           ∃ p, ps[i]? = some p ∧ ∃ e2, applyOne d p = .error e2)) := by
  constructor
  · exact ⟨invalidOpMsg testPatchW 0, rfl, rfl⟩
  · intro doc ps sch e i h
    cases ps with
    | nil => rw [apply_patches] at h; cases h
    | cons p rest =>
      rw [apply_patches] at h
      cases hval : findInvalidOp (p :: rest) 0 with
      | some pr =>
        obtain ⟨j, msg⟩ := pr
        rw [hval] at h
        injection h with he hi
        obtain ⟨i0, hj0, hlen, q, hget, hval2, hmsg, hmin⟩ :=
          findInvalidOp_spec (p :: rest) 0 j msg hval
        have hj : j = i0 := by omega
        subst hj
        simp only [hval]
        exact ⟨hi.symm, he.symm, q, hget, hval2, hmin⟩
      | none =>
        rw [hval] at h
        cases happ : applyAllOps doc (p :: rest) with
        | ok d => rw [happ] at h; cases h
        | error e2 =>
          rw [happ] at h
          injection h with he hi
          obtain ⟨i2, hfind, hlen, d2, hpre, p2, hget, e3, hfail⟩ :=
            findFailedAux_spec (p :: rest) doc 0 e2 happ
          have hidx : i = i2 := by
            rw [← hi, findFailedPatchIndex, hfind]
            simp
          subst hidx
          simp only [hval]
          exact ⟨hlen, d2, hpre, p2, hget, e3, hfail⟩

/-- Witness for C3: on the empty document the single application-stage
failure `replace /x` is reported at replay index 0 (validation finds
nothing, the empty prefix applies, and operation 0 fails). -/
theorem c3_witness :
    0 < [replPatchW].length ∧
    ∃ d, applyAllOps (JSON.obj []) ([replPatchW].take 0) = .ok d ∧
      ∃ p, [replPatchW][0]? = some p ∧ ∃ e2, applyOne d p = .error e2 :=
  c3_failed_index.2 (JSON.obj []) [replPatchW] none
    "Patch conflict: can not replace non-existent member x" 0 rfl

/-- C10: a successful `apply_patches` call on a non-empty patch list leaves
the caller's original document value unchanged; the patched result (the
full application of the list) is observable only through the `document`
member of the returned result, never through the input argument. -/
theorem c10_success_frame (doc : JSON) (ps : List PatchOp) (sch : Option JSON)
    (d : JSON) (n : Nat) (m : Option String) :
    ps ≠ [] →
    apply_patches doc ps sch = .success d n m →
    (apply_patches_effect doc ps sch).2 = doc ∧
    (apply_patches_effect doc ps sch).1.documentOf = some d ∧
    applyAllOps doc ps = .ok d := by
  intro _ h
  obtain ⟨h1, _⟩ := apply_patches_success_inv doc ps sch d n m h
  refine ⟨rfl, ?_, h1⟩
  rw [apply_patches_effect, h]
  rfl

/-- Witness for C10 at Scenario A. -/
theorem c10_witness :
    (apply_patches_effect (JSON.obj []) [addPatchW] none).2 = JSON.obj [] ∧
    (apply_patches_effect (JSON.obj []) [addPatchW] none).1.documentOf =
      some (JSON.obj [("name", JSON.str "John")]) ∧
    applyAllOps (JSON.obj []) [addPatchW] = .ok (JSON.obj [("name", JSON.str "John")]) :=
  c10_success_frame (JSON.obj []) [addPatchW] none
    (JSON.obj [("name", JSON.str "John")]) 1 none (by simp) rfl

/-! ### Query engine theorems (C5, C8) -/

theorem setAssoc_all (P : JSON → Bool) :
    ∀ (fields : List (String × JSON)) (key : String) (v : JSON),
      (∀ q ∈ fields, P q.2 = true) → P v = true →
      ∀ q ∈ setAssoc fields key v, P q.2 = true := by
  intro fields
  induction fields with
  | nil =>
    intro key v _ hv q hq
    rw [setAssoc] at hq
    simp at hq
    subst hq
    exact hv
  | cons p rest ih =>
    obtain ⟨pk, px⟩ := p
    intro key v hall hv q hq
    rw [setAssoc] at hq
    by_cases hk : pk = key
    · rw [if_pos hk] at hq
      cases hq with
      | head => exact hv
      | tail _ hmem => exact hall q (List.mem_cons_of_mem _ hmem)
    · rw [if_neg hk] at hq
      cases hq with
      | head => exact hall (pk, px) (List.mem_cons_self _ _)
      | tail _ hmem =>
        exact ih key v (fun q2 hq2 => hall q2 (List.mem_cons_of_mem _ hq2)) hv q hmem

theorem compoundFree_str (k : Nat) (s : String) : compoundFree k (.str s) = true := by
  cases k <;> rfl

theorem truncVal_compoundFree (msl mai mok : Nat) :
    ∀ (k : Nat) (v : JSON), compoundFree k (truncVal msl mai mok k v) = true := by
  intro k
  induction k with
  | zero =>
    intro v
    cases v with
    | str s =>
      rw [truncVal]
      split <;> rfl
    | _ => rfl
  | succ k ih =>
    intro v
    cases v with
    | null => rfl
    | bool b => rfl
    | num n => rfl
    | str s =>
      rw [truncVal]
      split <;> rfl
    | obj fields =>
      rw [truncVal]
      split
      · rw [compoundFree, List.all_eq_true]
        intro q hq
        refine setAssoc_all (compoundFree k) _ "__truncated__" _ ?_ (compoundFree_str k _) q hq
        intro q2 hq2
        obtain ⟨p0, hp0, rfl⟩ := List.mem_map.mp hq2
        exact ih p0.2
      · rw [compoundFree, List.all_eq_true]
        intro q hq
        obtain ⟨p0, hp0, rfl⟩ := List.mem_map.mp hq
        exact ih p0.2
    | arr items =>
      rw [truncVal]
      split
      · rw [compoundFree, List.all_eq_true]
        intro q hq
        rcases List.mem_append.mp hq with hq1 | hq2
        · obtain ⟨x0, hx0, rfl⟩ := List.mem_map.mp hq1
          exact ih x0
        · simp at hq2
          subst hq2
          exact compoundFree_str k _
      · rw [compoundFree, List.all_eq_true]
        intro q hq
        obtain ⟨x0, hx0, rfl⟩ := List.mem_map.mp hq
        exact ih x0

/-- C5: for every document, every pointer path it can resolve, and all
caps, the value a successful `read_value` returns contains no compound
(object or array) value at or beyond depth `max_depth` below the resolved
node; and a compound value reached with the depth budget exhausted becomes
a count-only placeholder string. -/
theorem c5_truncation_bound :
    (∀ (doc : JSON) (path : String) (msl maxD mai mok : Nat) (p : String)
        (v : JSON) (t : String),
      read_value doc path msl maxD mai mok = .found p v t →
      compoundFree maxD v = true) ∧
    (∀ (msl mai mok : Nat) (fields : List (String × JSON)),
      truncVal msl mai mok 0 (.obj fields) = .str (objPlaceholder fields.length)) ∧
    (∀ (msl mai mok : Nat) (items : List JSON),
      truncVal msl mai mok 0 (.arr items) = .str (arrPlaceholder items.length)) := by
  refine ⟨?_, fun _ _ _ _ => rfl, fun _ _ _ _ => rfl⟩
  intro doc path msl maxD mai mok p v t h
  rw [read_value] at h
  cases hres : resolveForTools doc path with
  | error e => rw [hres] at h; cases h
  | ok v0 =>
    rw [hres] at h
    injection h with hp hv ht
    rw [← hv]
    exact truncVal_compoundFree msl mai mok maxD v0

/-- Witness for C5: reading a three-level nested object with
`max_depth = 1` collapses the depth-1 child object into a placeholder
string, and the result is compound-free at depth 1. -/
theorem c5_witness :
    compoundFree 1 (.obj [("a", .str (objPlaceholder 1))]) = true :=
  c5_truncation_bound.1 docC5W "" 160 1 50 50 ""
    (.obj [("a", .str (objPlaceholder 1))]) "dict" rfl

theorem inspectPreview_spec (s : String) :
    (inspectPreview s).length ≤ 103 ∧
    (s.length ≤ 100 → inspectPreview s = s) ∧
    (100 < s.length →
      inspectPreview s = strTake s 100 ++ "..." ∧ (inspectPreview s).length = 103) := by
  by_cases h : 100 < s.length
  · have h1 : inspectPreview s = strTake s 100 ++ "..." := by
      rw [inspectPreview, if_pos h]
    have htake : (strTake s 100).length = 100 := by
      show (s.toList.take 100).length = 100
      rw [List.length_take]
      have : s.toList.length = s.length := rfl
      omega
    have h2 : (inspectPreview s).length = 103 := by
      rw [h1, String.length_append, htake]
      have h3 : "...".length = 3 := rfl
      omega
    exact ⟨by omega, fun hle => by omega, fun _ => ⟨h1, h2⟩⟩
  · have h1 : inspectPreview s = s := by
      rw [inspectPreview, if_neg h]
    exact ⟨by rw [h1]; omega, fun _ => h1, fun hgt => absurd hgt h⟩

/-- C8 (amended): `inspect_keys` is a total function of document and string
path — a pointer-resolution failure yields a not-found record carrying the
error text and the queried path; an object yields its key list and their
count; an array its length; a scalar its runtime type name together with a
preview of `str(value)` showing at most its first 100 characters, with an
ellipsis marker appended when it was longer (so the preview string itself
has at most 103 characters, not 100). -/
theorem c8_inspect_shape (doc : JSON) (path : String) :
    (∀ e, resolveForTools doc path = .error e →
      inspect_keys doc path = .notFound e.msg path) ∧
    (∀ fields, resolveForTools doc path = .ok (.obj fields) →
      inspect_keys doc path =
        .objectInfo path (fields.map Prod.fst) (fields.map Prod.fst).length) ∧
    (∀ items, resolveForTools doc path = .ok (.arr items) →
      inspect_keys doc path = .arrayInfo path items.length) ∧
    (∀ v, resolveForTools doc path = .ok v → isCompound v = false →
      inspect_keys doc path = .scalarInfo path (typeNameOf v) (inspectPreview (pyStr v)) ∧
      (inspectPreview (pyStr v)).length ≤ 103 ∧
      ((pyStr v).length ≤ 100 → inspectPreview (pyStr v) = pyStr v) ∧
      (100 < (pyStr v).length →
        inspectPreview (pyStr v) = strTake (pyStr v) 100 ++ "..." ∧
        (inspectPreview (pyStr v)).length = 103)) := by
  refine ⟨?_, ?_, ?_, ?_⟩
  · intro e hres
    simp only [inspect_keys, hres]
  · intro fields hres
    simp only [inspect_keys, hres, List.length_map]
  · intro items hres
    simp only [inspect_keys, hres]
  · intro v hres hscal
    obtain ⟨hb, hmid, hlong⟩ := inspectPreview_spec (pyStr v)
    refine ⟨?_, hb, hmid, hlong⟩
    cases v with
    | obj fields => simp [isCompound] at hscal
    | arr items => simp [isCompound] at hscal
    | null => simp only [inspect_keys, hres]
    | bool b => simp only [inspect_keys, hres]
    | num n => simp only [inspect_keys, hres]
    | str s => simp only [inspect_keys, hres]

/-- Witness for C8 (amended) at the concrete 101-character scalar. -/
theorem c8_witness :
    inspect_keys docC8W "/a" =
      .scalarInfo "/a" "str" (inspectPreview (pyStr (JSON.str s101W))) ∧
    (inspectPreview (pyStr (JSON.str s101W))).length ≤ 103 := by
  obtain ⟨h1, h2, _, _⟩ := (c8_inspect_shape docC8W "/a").2.2.2 (JSON.str s101W) rfl rfl
  exact ⟨h1, h2⟩

/-- C8 counterexample: at the 101-character scalar of `docC8W` the preview
`inspect_keys` returns has 103 characters; it is not capped at 100
characters as the claim states. -/
theorem c8_counterexample :
    inspectPreviewLen docC8W "/a" = 103 ∧ ¬ inspectPreviewLen docC8W "/a" ≤ 100 := by
  have h : inspectPreviewLen docC8W "/a" = 103 := by rfl
  exact ⟨h, by rw [h]; omega⟩

/-! ### Search safety theorems (C6) -/

theorem filter_length_mono (l : List Nat) (p q : Nat → Bool)
    (h : ∀ x, p x = true → q x = true) :
    (l.filter p).length ≤ (l.filter q).length := by
  induction l with
  | nil => simp
  | cons a t ih =>
    by_cases hp : p a = true
    · rw [List.filter_cons_of_pos hp, List.filter_cons_of_pos (h a hp)]
      simpa using ih
    · rw [List.filter_cons_of_neg (by simpa using hp)]
      by_cases hq : q a = true
      · rw [List.filter_cons_of_pos hq]
        exact Nat.le_succ_of_le ih
      · rw [List.filter_cons_of_neg (by simpa using hq)]
        exact ih

theorem unvisited_mono (A : List ArenaNode) (s1 s2 : List Nat)
    (h : ∀ i ∈ s1, i ∈ s2) : unvisited A s2 ≤ unvisited A s1 := by
  apply filter_length_mono
  intro x hx
  simp only [decide_eq_true_eq] at hx ⊢
  intro hmem
  exact hx (h x hmem)

theorem mem_filter_insert_lt (idx : Nat) (seen : List Nat) (hns : idx ∉ seen) :
    ∀ (l : List Nat), idx ∈ l →
      (l.filter (fun i => decide (i ∉ idx :: seen))).length <
        (l.filter (fun i => decide (i ∉ seen))).length := by
  intro l
  induction l with
  | nil => intro h; cases h
  | cons a t ih =>
    intro hmem
    by_cases ha : a = idx
    · subst ha
      rw [List.filter_cons_of_neg (by simp), List.filter_cons_of_pos (by simpa using hns)]
      have hmono := filter_length_mono t (fun i => decide (i ∉ a :: seen))
        (fun i => decide (i ∉ seen)) ?side
      case side =>
        intro x hx
        simp only [decide_eq_true_eq, List.mem_cons] at hx ⊢
        intro hmem2
        exact hx (Or.inr hmem2)
      simpa using Nat.lt_succ_of_le hmono
    · have hmem2 : idx ∈ t := by
        cases hmem with
        | head => exact absurd rfl ha
        | tail _ h2 => exact h2
      have heq : decide (a ∉ idx :: seen) = decide (a ∉ seen) := by
        by_cases hs : a ∈ seen
        · simp [hs]
        · simp [hs, List.mem_cons, ha]
      by_cases hs : a ∉ seen
      · rw [List.filter_cons_of_pos (by rw [heq]; simpa using hs),
          List.filter_cons_of_pos (by simpa using hs)]
        simpa using Nat.succ_lt_succ (ih hmem2)
      · rw [List.filter_cons_of_neg (by rw [heq]; simpa using hs),
          List.filter_cons_of_neg (by simpa using hs)]
        exact ih hmem2

theorem unvisited_insert_lt (A : List ArenaNode) (idx : Nat) (seen : List Nat)
    (hidx : idx < A.length) (hns : idx ∉ seen) :
    unvisited A (idx :: seen) < unvisited A seen :=
  mem_filter_insert_lt idx seen hns (List.range A.length) (List.mem_range.mpr hidx)

/-- Invariant bundle for one heap-search call at a given fuel: fuel can
only run out when the visited set already covers that much of the heap; a
completed call only grows the visited set; and with a bounded input match
list the output stays bounded by `limit` and equals `limit` exactly when
the truncation flag comes back `true`. -/
def SearchCallOk (A : List ArenaNode) (limit : Nat)
    (F : Nat → String → List SMatch → List Nat → Option (List SMatch × List Nat × Bool))
    (fuel : Nat) : Prop :=
  ∀ j path ms seen,
    (F j path ms seen = none → fuel ≤ unvisited A seen) ∧
    ∀ m sn b, F j path ms seen = some (m, sn, b) →
      (∀ i ∈ seen, i ∈ sn) ∧
      (ms.length ≤ limit → m.length ≤ limit ∧ (b = true → m.length = limit))

theorem append_one_length {α : Type} (ms : List α) (x : α) :
    (ms ++ [x]).length = ms.length + 1 := by simp

theorem searchFieldsGo_ok (A : List ArenaNode) (q st : String) (fz : Bool)
    (limit mvl : Nat)
    (F : Nat → String → List SMatch → List Nat → Option (List SMatch × List Nat × Bool))
    (fuel : Nat) (hF : SearchCallOk A limit F fuel) :
    ∀ (fields : List (String × RefA)) (path : String) (ms : List SMatch)
      (seen : List Nat),
      (searchFieldsGo A q st fz limit mvl F fields path ms seen = none →
        fuel ≤ unvisited A seen) ∧
      ∀ m sn b,
        searchFieldsGo A q st fz limit mvl F fields path ms seen = some (m, sn, b) →
        (∀ i ∈ seen, i ∈ sn) ∧
        (ms.length ≤ limit → m.length ≤ limit ∧ (b = true → m.length = limit)) := by
  intro fields
  induction fields with
  | nil =>
    intro path ms seen
    constructor
    · intro h; cases h
    · intro m sn b h
      rw [searchFieldsGo] at h
      simp only [Option.some.injEq, Prod.mk.injEq] at h
      obtain ⟨h1, h2, h3⟩ := h
      subst h1; subst h2; subst h3
      exact ⟨fun i hi => hi, fun hle => ⟨hle, fun hb3 => by cases hb3⟩⟩
  | cons kv rest ih =>
    obtain ⟨key, value⟩ := kv
    intro path ms seen
    by_cases hguard : limit ≤ ms.length
    · rw [searchFieldsGo, if_pos hguard]
      constructor
      · intro h; cases h
      · intro m sn b h
        simp only [Option.some.injEq, Prod.mk.injEq] at h
        obtain ⟨h1, h2, h3⟩ := h
        subst h1; subst h2; subst h3
        exact ⟨fun i hi => hi, fun hle => ⟨hle, fun _ => Nat.le_antisymm hle hguard⟩⟩
    · rw [searchFieldsGo, if_neg hguard]
      have hms : ms.length < limit := Nat.lt_of_not_le hguard
      cases value with
      | prim p =>
        simp only
        set ms1 := (if st = "key" then
            if pymatches key q fz then
              ms ++ [.keyMatch (path ++ "/" ++ escapePointerToken key) key
                (previewValueA A (.prim p) mvl)]
            else ms
          else if st = "value" then
            if pymatches (primStr p) q fz then
              ms ++ [.valueMatch (path ++ "/" ++ escapePointerToken key)
                (strTake (primStr p) mvl)]
            else ms
          else ms) with hms1def
        have hms1 : ms1.length ≤ ms.length + 1 := by
          rw [hms1def]
          split
          · split
            · rw [append_one_length]
            · omega
          · split
            · split
              · rw [append_one_length]
              · omega
            · omega
        constructor
        · intro h
          exact (ih path ms1 seen).1 h
        · intro m sn b h
          obtain ⟨hmono, hcnt⟩ := (ih path ms1 seen).2 m sn b h
          exact ⟨hmono, fun _ => hcnt (by omega)⟩
      | node j =>
        simp only
        set ms1 := (if st = "key" then
            if pymatches key q fz then
              ms ++ [.keyMatch (path ++ "/" ++ escapePointerToken key) key
                (previewValueA A (.node j) mvl)]
            else ms
          else ms) with hms1def
        have hms1 : ms1.length ≤ ms.length + 1 := by
          rw [hms1def]
          split
          · split
            · rw [append_one_length]
            · omega
          · omega
        cases hf : F j (path ++ "/" ++ escapePointerToken key) ms1 seen with
        | none =>
          constructor
          · intro _
            exact (hF j (path ++ "/" ++ escapePointerToken key) ms1 seen).1 hf
          · intro m sn b h; cases h
        | some t =>
          obtain ⟨m0, sn0, b0⟩ := t
          obtain ⟨hmono0, hcnt0⟩ :=
            (hF j (path ++ "/" ++ escapePointerToken key) ms1 seen).2 m0 sn0 b0 hf
          have hcnt1 := hcnt0 (by omega)
          cases b0 with
          | true =>
            constructor
            · intro h; cases h
            · intro m sn b h
              simp only [Option.some.injEq, Prod.mk.injEq] at h
              obtain ⟨h1, h2, h3⟩ := h
              subst h1; subst h2; subst h3
              exact ⟨hmono0, fun _ => ⟨hcnt1.1, fun _ => hcnt1.2 rfl⟩⟩
          | false =>
            constructor
            · intro h
              have := (ih path m0 sn0).1 h
              calc fuel ≤ unvisited A sn0 := this
                _ ≤ unvisited A seen := unvisited_mono A seen sn0 hmono0
            · intro m sn b h
              obtain ⟨hmono, hcnt⟩ := (ih path m0 sn0).2 m sn b h
              refine ⟨fun i hi => hmono i (hmono0 i hi), fun _ => hcnt hcnt1.1⟩

theorem searchItemsGo_ok (A : List ArenaNode) (q st : String) (fz : Bool)
    (limit mvl : Nat)
    (F : Nat → String → List SMatch → List Nat → Option (List SMatch × List Nat × Bool))
    (fuel : Nat) (hF : SearchCallOk A limit F fuel) :
    ∀ (items : List RefA) (idx : Nat) (path : String) (ms : List SMatch)
      (seen : List Nat),
      (searchItemsGo A q st fz limit mvl F items idx path ms seen = none →
        fuel ≤ unvisited A seen) ∧
      ∀ m sn b,
        searchItemsGo A q st fz limit mvl F items idx path ms seen = some (m, sn, b) →
        (∀ i ∈ seen, i ∈ sn) ∧
        (ms.length ≤ limit → m.length ≤ limit ∧ (b = true → m.length = limit)) := by
  intro items
  induction items with
  | nil =>
    intro idx path ms seen
    constructor
    · intro h; cases h
    · intro m sn b h
      rw [searchItemsGo] at h
      simp only [Option.some.injEq, Prod.mk.injEq] at h
      obtain ⟨h1, h2, h3⟩ := h
      subst h1; subst h2; subst h3
      exact ⟨fun i hi => hi, fun hle => ⟨hle, fun hb3 => by cases hb3⟩⟩
  | cons item rest ih =>
    intro idx path ms seen
    by_cases hguard : limit ≤ ms.length
    · rw [searchItemsGo, if_pos hguard]
      constructor
      · intro h; cases h
      · intro m sn b h
        simp only [Option.some.injEq, Prod.mk.injEq] at h
        obtain ⟨h1, h2, h3⟩ := h
        subst h1; subst h2; subst h3
        exact ⟨fun i hi => hi, fun hle => ⟨hle, fun _ => Nat.le_antisymm hle hguard⟩⟩
    · rw [searchItemsGo, if_neg hguard]
      have hms : ms.length < limit := Nat.lt_of_not_le hguard
      cases item with
      | prim p =>
        simp only
        set ms1 := (if st = "value" then
            if pymatches (primStr p) q fz then
              ms ++ [.valueMatch (path ++ "/" ++ toString idx) (strTake (primStr p) mvl)]
            else ms
          else ms) with hms1def
        have hms1 : ms1.length ≤ ms.length + 1 := by
          rw [hms1def]
          split
          · split
            · rw [append_one_length]
            · omega
          · omega
        constructor
        · intro h
          exact (ih (idx + 1) path ms1 seen).1 h
        · intro m sn b h
          obtain ⟨hmono, hcnt⟩ := (ih (idx + 1) path ms1 seen).2 m sn b h
          exact ⟨hmono, fun _ => hcnt (by omega)⟩
      | node j =>
        simp only
        cases hf : F j (path ++ "/" ++ toString idx) ms seen with
        | none =>
          constructor
          · intro _
            exact (hF j (path ++ "/" ++ toString idx) ms seen).1 hf
          · intro m sn b h; cases h
        | some t =>
          obtain ⟨m0, sn0, b0⟩ := t
          obtain ⟨hmono0, hcnt0⟩ := (hF j (path ++ "/" ++ toString idx) ms seen).2 m0 sn0 b0 hf
          have hcnt1 := hcnt0 (by omega)
          cases b0 with
          | true =>
            constructor
            · intro h; cases h
            · intro m sn b h
              simp only [Option.some.injEq, Prod.mk.injEq] at h
              obtain ⟨h1, h2, h3⟩ := h
              subst h1; subst h2; subst h3
              exact ⟨hmono0, fun _ => ⟨hcnt1.1, fun _ => hcnt1.2 rfl⟩⟩
          | false =>
            constructor
            · intro h
              have := (ih (idx + 1) path m0 sn0).1 h
              calc fuel ≤ unvisited A sn0 := this
                _ ≤ unvisited A seen := unvisited_mono A seen sn0 hmono0
            · intro m sn b h
              obtain ⟨hmono, hcnt⟩ := (ih (idx + 1) path m0 sn0).2 m sn b h
              refine ⟨fun i hi => hmono i (hmono0 i hi), fun _ => hcnt hcnt1.1⟩

theorem searchRefA_ok (A : List ArenaNode) (q st : String) (fz : Bool)
    (limit mvl : Nat) :
    ∀ (fuel : Nat) (r : RefA) (path : String) (ms : List SMatch) (seen : List Nat),
      (searchRefA A q st fz limit mvl fuel r path ms seen = none →
        fuel ≤ unvisited A seen) ∧
      ∀ m sn b, searchRefA A q st fz limit mvl fuel r path ms seen = some (m, sn, b) →
        (∀ i ∈ seen, i ∈ sn) ∧
        (ms.length ≤ limit → m.length ≤ limit ∧ (b = true → m.length = limit)) := by
  intro fuel
  induction fuel with
  | zero =>
    intro r path ms seen
    constructor
    · intro _; exact Nat.zero_le _
    · intro m sn b h; cases h
  | succ fuel ihf =>
    have hF : SearchCallOk A limit
        (fun j p m s => searchRefA A q st fz limit mvl fuel (.node j) p m s) fuel :=
      fun j p m s => ihf (.node j) p m s
    intro r path ms seen
    by_cases hguard : limit ≤ ms.length
    · rw [searchRefA.eq_def]
      simp only [if_pos hguard]
      constructor
      · intro h; cases h
      · intro m sn b h
        simp only [Option.some.injEq, Prod.mk.injEq] at h
        obtain ⟨h1, h2, h3⟩ := h
        subst h1; subst h2; subst h3
        exact ⟨fun i hi => hi, fun hle => ⟨hle, fun _ => Nat.le_antisymm hle hguard⟩⟩
    · rw [searchRefA.eq_def]
      simp only [if_neg hguard]
      have hms : ms.length < limit := Nat.lt_of_not_le hguard
      cases r with
      | prim p =>
        dsimp only
        constructor
        · intro h; cases h
        · intro m sn b h
          simp only [Option.some.injEq, Prod.mk.injEq] at h
          obtain ⟨h1, h2, h3⟩ := h
          subst h1; subst h2; subst h3
          exact ⟨fun i hi => hi, fun hle => ⟨hle, fun hb3 => by cases hb3⟩⟩
      | node idx =>
        dsimp only
        by_cases hseen : idx ∈ seen
        · rw [if_pos hseen]
          constructor
          · intro h; cases h
          · intro m sn b h
            simp only [Option.some.injEq, Prod.mk.injEq] at h
            obtain ⟨h1, h2, h3⟩ := h
            subst h1; subst h2; subst h3
            exact ⟨fun i hi => hi, fun hle => ⟨hle, fun hb3 => by cases hb3⟩⟩
        · rw [if_neg hseen]
          cases hA : A[idx]? with
          | none =>
            constructor
            · intro h; cases h
            · intro m sn b h
              simp only [Option.some.injEq, Prod.mk.injEq] at h
              obtain ⟨h1, h2, h3⟩ := h
              subst h1; subst h2; subst h3
              refine ⟨fun i hi => List.mem_cons_of_mem idx hi,
                fun hle => ⟨hle, fun hb3 => by cases hb3⟩⟩
          | some node =>
            have hidx : idx < A.length := by
              by_contra hge
              rw [List.getElem?_eq_none (by omega)] at hA
              cases hA
            have hdec : unvisited A (idx :: seen) < unvisited A seen :=
              unvisited_insert_lt A idx seen hidx hseen
            cases node with
            | aobj fields =>
              have hgo := searchFieldsGo_ok A q st fz limit mvl _ fuel hF fields path
                ms (idx :: seen)
              constructor
              · intro h
                have := hgo.1 h
                omega
              · intro m sn b h
                obtain ⟨hmono, hcnt⟩ := hgo.2 m sn b h
                exact ⟨fun i hi => hmono i (List.mem_cons_of_mem idx hi), hcnt⟩
            | aarr items =>
              have hgo := searchItemsGo_ok A q st fz limit mvl _ fuel hF items 0 path
                ms (idx :: seen)
              constructor
              · intro h
                have := hgo.1 h
                omega
              · intro m sn b h
                obtain ⟨hmono, hcnt⟩ := hgo.2 m sn b h
                exact ⟨fun i hi => hmono i (List.mem_cons_of_mem idx hi), hcnt⟩

/-- C6: for every heap-shaped document — including self-referential
(graph-shaped) structures — and every query, search type, fuzzy flag and
limit, the search completes (the fuel `len(arena) + 1` supplied by
`search_pointer_arena` can never run out, which is the termination of the
Python recursion), returns at most `limit` matches (`count ≤ limit`), and
whenever it stopped early because the limit was reached (`truncated =
true`), the match count is exactly `limit`. -/
theorem c6_search_safety (A : List ArenaNode) (root : RefA) (query searchType : String)
    (fuzzy : Bool) (limit maxVL : Nat) :
    ∃ r, search_pointer_arena A root query searchType fuzzy limit maxVL = some r ∧
      r.count ≤ limit ∧ (r.truncated = false ∨ r.count = limit) ∧
      r.count = r.matchesL.length := by
  have hmaster := searchRefA_ok A query searchType fuzzy limit maxVL
    (A.length + 1) root "" [] []
  cases hres : searchRefA A query searchType fuzzy limit maxVL (A.length + 1) root "" [] []
    with
  | none =>
    exfalso
    have hle := hmaster.1 hres
    have hunv : unvisited A ([] : List Nat) = A.length := by
      rw [unvisited]
      have hself : (List.range A.length).filter (fun i => decide (i ∉ ([] : List Nat))) =
          List.range A.length := by
        apply List.filter_eq_self.mpr
        intro a _
        simp
      rw [hself, List.length_range]
    omega
  | some t =>
    obtain ⟨m, sn, b⟩ := t
    obtain ⟨_, hcnt⟩ := hmaster.2 m sn b hres
    obtain ⟨hle, hb⟩ := hcnt (by simp)
    refine ⟨_, by rw [search_pointer_arena, hres]; rfl, by simpa using hle, ?_, rfl⟩
    cases b with
    | false => exact Or.inl rfl
    | true => exact Or.inr (by simpa using hb rfl)

/-! ### Dispatcher and orchestrator theorems (C1, C4, C9) -/

/-- A parsed non-empty turn that is not a lone `update_guidance` is plain
dispatch. -/
theorem execute_tools_delta_dispatch (th : String) (acts : List ActionItem)
    (doc : JSON) (schema : Option JSON)
    (hne : acts ≠ []) (hns : isSoloUG acts = false) :
    execute_tools_delta (.parsed th acts) doc schema = dispatchDelta schema doc acts := by
  match acts with
  | [] => exact absurd rfl hne
  | [a] =>
    rw [isSoloUG] at hns
    rw [execute_tools_delta, if_neg (by simpa using hns)]
  | a :: b :: rest => rfl

theorem dispatchActions_spec (schema : Option JSON) :
    ∀ (acts : List ActionItem) (doc : JSON),
      (dispatchActions schema doc acts).2.length = acts.length ∧
      ∀ (i : Nat) (hi : i < acts.length) (hr : i < (dispatchActions schema doc acts).2.length),
        (acts.get ⟨i, hi⟩).action = some "update_guidance" →
        (dispatchActions schema doc acts).2.get ⟨i, hr⟩ =
          ⟨(acts.get ⟨i, hi⟩).action, some (acts.get ⟨i, hi⟩).input,
            .errorR mixedFinalizeMsg⟩ := by
  intro acts
  induction acts with
  | nil =>
    intro doc
    exact ⟨rfl, fun i hi => absurd hi (by simp)⟩
  | cons a rest ih =>
    intro doc
    constructor
    · show ((dispatchActions schema (dispatchOne schema doc a).2 rest).2.length + 1) = _
      rw [(ih (dispatchOne schema doc a).2).1]
      rfl
    · intro i hi hr hug
      cases i with
      | zero =>
        have hget : ((a :: rest).get ⟨0, hi⟩) = a := rfl
        rw [hget] at hug ⊢
        show (dispatchOne schema doc a).1 = _
        rw [dispatchOne, hug]
        rfl
      | succ j =>
        have hj : j < rest.length := by simpa using hi
        have hj2 : j < (dispatchActions schema (dispatchOne schema doc a).2 rest).2.length := by
          rw [(ih (dispatchOne schema doc a).2).1]; exact hj
        exact (ih (dispatchOne schema doc a).2).2 j hj hj2 hug

/-- C1: a turn whose parsed action list is exactly one `update_guidance`
sets `is_chunk_finalized` to true and installs the returned guidance
(without touching `json_document`); any other non-empty shape never sets
`is_chunk_finalized` and installs no guidance, a mixed-in
`update_guidance` yields the per-action "must be the ONLY action" error
record at its own position, and it leaves the threaded document unchanged
while the remaining actions of the turn are processed in order. -/
theorem c1_finalization_gate :
    (∀ (th : String) (gi : ActionInput) (doc : JSON) (schema : Option JSON),
      execute_tools_delta (.parsed th [{ action := some "update_guidance", input := gi }])
          doc schema =
        { guidance := some (update_guidance gi.guidanceArgs).guidance,
          is_chunk_finalized := some true,
          actions_results := some [⟨some "update_guidance", none,
            .guidanceR (update_guidance gi.guidanceArgs)⟩] }) ∧
    (∀ (th : String) (acts : List ActionItem) (doc : JSON) (schema : Option JSON),
      acts ≠ [] → isSoloUG acts = false →
      (execute_tools_delta (.parsed th acts) doc schema).is_chunk_finalized = none ∧
      (execute_tools_delta (.parsed th acts) doc schema).guidance = none ∧
      (execute_tools_delta (.parsed th acts) doc schema).error = none ∧
      ∃ rs, (execute_tools_delta (.parsed th acts) doc schema).actions_results = some rs ∧
        rs.length = acts.length ∧
        ∀ (i : Nat) (hi : i < acts.length) (hr : i < rs.length),
          (acts.get ⟨i, hi⟩).action = some "update_guidance" →
          rs.get ⟨i, hr⟩ = ⟨(acts.get ⟨i, hi⟩).action, some (acts.get ⟨i, hi⟩).input,
            .errorR mixedFinalizeMsg⟩) ∧
    (∀ (a : ActionItem) (rest : List ActionItem) (doc : JSON) (schema : Option JSON),
      a.action = some "update_guidance" →
      dispatchActions schema doc (a :: rest) =
        ((dispatchActions schema doc rest).1,
          ⟨a.action, some a.input, .errorR mixedFinalizeMsg⟩ ::
            (dispatchActions schema doc rest).2)) := by
  refine ⟨?_, ?_, ?_⟩
  · intro th gi doc schema
    rfl
  · intro th acts doc schema hne hns
    rw [execute_tools_delta_dispatch th acts doc schema hne hns]
    obtain ⟨hlen, hidx⟩ := dispatchActions_spec schema acts doc
    exact ⟨rfl, rfl, rfl, (dispatchActions schema doc acts).2, rfl, hlen, hidx⟩
  · intro a rest doc schema hug
    show ((dispatchActions schema (dispatchOne schema doc a).2 rest).1,
      (dispatchOne schema doc a).1 :: (dispatchActions schema (dispatchOne schema doc a).2 rest).2) = _
    rw [dispatchOne, hug]
    rfl

/-- Witness for C1 at the concrete mixed turn `[update_guidance,
inspect_keys]`. -/
theorem c1_witness :
    (execute_tools_delta (.parsed "" actsC1W) (.obj []) none).is_chunk_finalized = none ∧
    (execute_tools_delta (.parsed "" actsC1W) (.obj []) none).guidance = none := by
  obtain ⟨h1, h2, _, _⟩ := c1_finalization_gate.2.1 "" actsC1W (.obj []) none
    (fun h => List.noConfusion h) rfl
  exact ⟨h1, h2⟩

/-- C9: a parsed turn with an empty (or missing, which parses as empty)
action list sets exactly the run error `"No actions specified by the
LLM."`; and any state with an error set routes `has_more_chunks` to the
end of the run and `is_chunk_done` to finalize, so no further chunk is
processed and the run returns with the error. -/
theorem c9_empty_actions_halts :
    (∀ (th : String) (doc : JSON) (schema : Option JSON),
      execute_tools_delta (.parsed th []) doc schema =
        { error := some "No actions specified by the LLM." }) ∧
    (∀ (st : AgentState) (m : String),
      has_more_chunks { st with error := some m } = .end_run ∧
      is_chunk_done { st with error := some m } = .finalize_chunk) := by
  constructor
  · intro th doc schema
    rfl
  · intro st m
    constructor
    · rw [has_more_chunks]
      simp
    · rw [is_chunk_done]
      split
      · rfl
      · split
        · rfl
        · rw [if_pos (by simp)]

theorem goodTurn_delta (c : LLMContent) (h : goodTurn c = true) (doc : JSON)
    (schema : Option JSON) :
    (execute_tools_delta c doc schema).error = none ∧
    (execute_tools_delta c doc schema).is_chunk_finalized = none ∧
    (execute_tools_delta c doc schema).guidance = none := by
  match c with
  | .noMessage => cases h
  | .unparsable e => cases h
  | .parsed th [] => cases h
  | .parsed th [a] =>
    rw [goodTurn] at h
    rw [execute_tools_delta, if_neg (by simpa using h)]
    exact ⟨rfl, rfl, rfl⟩
  | .parsed th (a :: b :: rest) => exact ⟨rfl, rfl, rfl⟩

theorem chunkPass_good (c : LLMContent) (h : goodTurn c = true) (st : AgentState) :
    (chunkPass c st).error = st.error ∧
    (chunkPass c st).is_chunk_finalized = st.is_chunk_finalized ∧
    (chunkPass c st).iteration_count = st.iteration_count + 1 ∧
    (chunkPass c st).max_iterations = st.max_iterations ∧
    (chunkPass c st).current_chunk_idx = st.current_chunk_idx ∧
    (chunkPass c st).chunks = st.chunks := by
  obtain ⟨he, hf, _⟩ := goodTurn_delta c h st.json_document st.target_schema
  rw [chunkPass, applyDelta]
  refine ⟨?_, ?_, rfl, rfl, rfl, rfl⟩
  · show (match (execute_tools_delta c st.json_document st.target_schema).error with
      | some e => some e | none => (call_llm_increment st).error) = st.error
    rw [he]
    rfl
  · show ((execute_tools_delta c st.json_document st.target_schema).is_chunk_finalized.getD
      (call_llm_increment st).is_chunk_finalized) = st.is_chunk_finalized
    rw [hf]
    rfl

theorem runChunkFuel_exact (oracle : Nat → LLMContent)
    (hgood : ∀ k, goodTurn (oracle k) = true) :
    ∀ (fuel : Nat) (st : AgentState),
      st.error = none → st.is_chunk_finalized = false →
      st.iteration_count < st.max_iterations →
      st.max_iterations - st.iteration_count ≤ fuel →
      ∃ fin, runChunkFuel oracle fuel st =
          some (fin, st.max_iterations - st.iteration_count) ∧
        fin.current_chunk_idx = st.current_chunk_idx ∧
        fin.chunks = st.chunks := by
  intro fuel
  induction fuel with
  | zero =>
    intro st _ _ hlt hfu
    omega
  | succ fuel ih =>
    intro st herr hfin hlt hfu
    obtain ⟨he, hf, hic, hmx, hix, hch⟩ := chunkPass_good (oracle st.iteration_count)
      (hgood _) st
    by_cases hdone : st.iteration_count + 1 = st.max_iterations
    · have hroute : is_chunk_done (chunkPass (oracle st.iteration_count) st) =
          .finalize_chunk := by
        rw [is_chunk_done, if_neg (by rw [hf, hfin]; exact Bool.false_ne_true),
          if_pos (by omega)]
      rw [runChunkFuel, hroute]
      exact ⟨chunkPass (oracle st.iteration_count) st, by rw [show st.max_iterations -
        st.iteration_count = 1 by omega], hix, hch⟩
    · have hroute : is_chunk_done (chunkPass (oracle st.iteration_count) st) =
          .call_llm := by
        rw [is_chunk_done, if_neg (by rw [hf, hfin]; exact Bool.false_ne_true),
          if_neg (by omega), if_neg (by rw [he, herr]; simp)]
      obtain ⟨fin, hrun, hix2, hch2⟩ := ih (chunkPass (oracle st.iteration_count) st)
        (by rw [he, herr]) (by rw [hf, hfin]) (by omega) (by omega)
      refine ⟨fin, ?_, by rw [hix2, hix], by rw [hch2, hch]⟩
      rw [runChunkFuel, hroute, hrun]
      show some (fin, _ + 1) = _
      rw [hic, hmx]
      congr 2
      omega

/-- C4 counterexample: with `max_iterations = 0` and a model that never
finalizes, the orchestrator still performs one model call for the chunk
(the budget check runs only after a call), not zero as the claim's
"exactly N model calls for every N" would require. -/
theorem c4_counterexample :
    stC4W.max_iterations = 0 ∧
    (processChunk oracleC4W stC4W).map (fun p => p.2) = some 1 :=
  ⟨rfl, rfl⟩

/-- C4 (amended): for every chunk and every `max_iterations = N` with
`N ≥ 1`, if the model never emits a turn consisting solely of a valid
`update_guidance` action and no fatal error is set, the orchestrator
performs exactly `N` model calls for that chunk and then advances
`current_chunk_idx` by one; `iteration_count` is reset to `0` when the
chunk is prepared and incremented by exactly one per model invocation.
(For `N ≤ 0` the source still performs one call, because `is_chunk_done`
runs only after `call_llm`; see the counterexample.) -/
theorem c4_iteration_cap (oracle : Nat → LLMContent) (st : AgentState)
    (hgood : ∀ k, goodTurn (oracle k) = true)
    (herr : st.error = none)
    (hchunk : st.current_chunk_idx < st.chunks.length)
    (hN : 1 ≤ st.max_iterations) :
    (∃ fin, processChunk oracle st = some (fin, st.max_iterations) ∧
      fin.current_chunk_idx = st.current_chunk_idx + 1) ∧
    (prepare_chunk st).iteration_count = 0 ∧
    (∀ st2 : AgentState, (call_llm_increment st2).iteration_count =
      st2.iteration_count + 1) := by
  have hprep : prepare_chunk st =
      { st with
        actions_results := [],
        is_chunk_finalized := false,
        iteration_count := 0 } := by
    rw [prepare_chunk, if_pos hchunk]
  refine ⟨?_, by rw [hprep], fun st2 => rfl⟩
  obtain ⟨fin, hrun, hix, _⟩ := runChunkFuel_exact oracle hgood
    ((prepare_chunk st).max_iterations + 1) (prepare_chunk st)
    (by rw [hprep]; exact herr) (by rw [hprep]) (by rw [hprep]; simpa using hN)
    (by omega)
  refine ⟨finalize_chunk_node fin, ?_, ?_⟩
  · have hsub : (prepare_chunk st).max_iterations - (prepare_chunk st).iteration_count =
        st.max_iterations := by rw [hprep]; rfl
    rw [processChunk, hrun]
    show some (finalize_chunk_node fin,
      (prepare_chunk st).max_iterations - (prepare_chunk st).iteration_count) = _
    rw [hsub]
  · rw [finalize_chunk_node]
    show fin.current_chunk_idx + 1 = st.current_chunk_idx + 1
    rw [hix, hprep]

/-- Witness for C4 (amended): with two iterations allowed and a model that
never finalizes, exactly two model calls happen and the chunk index
advances by one. -/
theorem c4_witness :
    ∃ fin, processChunk oracleC4W stC4W2 = some (fin, stC4W2.max_iterations) ∧
      fin.current_chunk_idx = stC4W2.current_chunk_idx + 1 :=
  (c4_iteration_cap oracleC4W stC4W2 (fun _ => rfl) rfl (by decide) (by decide)).1

end Spec2Proof
